import Mathlib

/-!
# Verification development for `cmd/mkdown/md2html.go`

A shallow embedding of the Markdown-to-HTML command of the `kit` tool:

* `getTitle`, the title sniffer (a byte scanner with explicit indexing),
* the implied-option pass at the start of `md2html.Handle`,
* the two backend adapters `blackFriday` and `goMarkdown`, the output
  writer `outToWriter`, and the dispatch in `Handle`.

Go byte slices and strings are lists of bytes; a byte is a natural number.
An index expression `input[i]` or a slice expression `input[a:b]` that is
out of range makes the Go program panic; here such an expression evaluates
to `none`, and a function that can reach one returns an `Option`.
Go `int` indices never exceed `len(input) + 1` in this code, so they are
plain natural numbers.
-/

namespace Mkdown

/-- A Go `byte`. -/
abbrev Byte := Nat

/-- Go `const defaultTitle = ""`. -/
def defaultTitle : List Byte := []

/-! ## Go runtime and standard library pieces used by `getTitle` -/

/-- Index expression `s[i]`: a run-time panic (`none`) when `i` is out of range. -/
def index (s : List Byte) (i : Nat) : Option Byte := s[i]?

/-- Slice expression `s[lo:hi]`: a run-time panic (`none`) unless `lo ≤ hi ≤ len(s)`. -/
def slice (s : List Byte) (lo hi : Nat) : Option (List Byte) :=
  if lo ≤ hi ∧ hi ≤ s.length then some ((s.drop lo).take (hi - lo)) else none

/-- Go `utf8.RuneError`. -/
def RuneError : Nat := 0xFFFD

/-- Continuation byte test `locb ≤ b ≤ hicb`. -/
def isCont (b : Byte) : Bool := 0x80 ≤ b && b ≤ 0xBF

/-- Go `utf8.DecodeRuneInString`: the first rune of `s` and its width in bytes;
`(RuneError, 0)` on the empty string and `(RuneError, 1)` on an invalid encoding. -/
def DecodeRune (s : List Byte) : Nat × Nat :=
  match s with
  | [] => (RuneError, 0)
  | s0 :: t =>
    if s0 < 0x80 then (s0, 1)
    else if s0 < 0xC2 then (RuneError, 1)
    else if s0 < 0xE0 then
      match t with
      | s1 :: _ =>
        if isCont s1 then (((s0 &&& 0x1F) <<< 6) ||| (s1 &&& 0x3F), 2) else (RuneError, 1)
      | _ => (RuneError, 1)
    else if s0 < 0xF0 then
      match t with
      | s1 :: s2 :: _ =>
        let lo := if s0 = 0xE0 then 0xA0 else 0x80
        let hi := if s0 = 0xED then 0x9F else 0xBF
        if s1 < lo || hi < s1 then (RuneError, 1)
        else if !isCont s2 then (RuneError, 1)
        else (((s0 &&& 0x0F) <<< 12) ||| ((s1 &&& 0x3F) <<< 6) ||| (s2 &&& 0x3F), 3)
      | _ => (RuneError, 1)
    else if s0 < 0xF5 then
      match t with
      | s1 :: s2 :: s3 :: _ =>
        let lo := if s0 = 0xF0 then 0x90 else 0x80
        let hi := if s0 = 0xF4 then 0x8F else 0xBF
        if s1 < lo || hi < s1 then (RuneError, 1)
        else if !isCont s2 then (RuneError, 1)
        else if !isCont s3 then (RuneError, 1)
        else (((s0 &&& 0x07) <<< 18) ||| ((s1 &&& 0x3F) <<< 12) ||| ((s2 &&& 0x3F) <<< 6)
                ||| (s3 &&& 0x3F), 4)
      | _ => (RuneError, 1)
    else (RuneError, 1)

/-- Go `utf8.RuneStart`: the byte is not a continuation byte. -/
def RuneStart (b : Byte) : Bool := b &&& 0xC0 != 0x80

/-- The backward search of `utf8.DecodeLastRuneInString`:
`for start--; start >= lim; start-- { if RuneStart(s[start]) { break } }`,
run on integers (the result may be `lim - 1`). `n` bounds the iterations. -/
def lastRuneStart (s : List Byte) (lim : Int) : Nat → Int → Int
  | 0, start => start
  | n + 1, start =>
    if start < lim then start
    else if RuneStart (s.getD start.toNat 0) then start
    else lastRuneStart s lim n (start - 1)

/-- Go `utf8.DecodeLastRuneInString`: the last rune of `s` and its width. -/
def DecodeLastRune (s : List Byte) : Nat × Nat :=
  let e := s.length
  if e = 0 then (RuneError, 0)
  else
    let r := s.getD (e - 1) 0
    if r < 0x80 then (r, 1)
    else
      let lim : Int := if (e : Int) - 4 < 0 then 0 else (e : Int) - 4
      let start0 := lastRuneStart s lim 5 ((e : Int) - 2)
      let start := if start0 < 0 then 0 else start0.toNat
      let d := DecodeRune (s.drop start)
      if start + d.2 ≠ e then (RuneError, 1) else d

/-- Go `unicode.IsSpace`. -/
def IsSpace (r : Nat) : Bool :=
  r = 0x09 || r = 0x0A || r = 0x0B || r = 0x0C || r = 0x0D || r = 0x20 ||
  r = 0x85 || r = 0xA0 || r = 0x1680 || (0x2000 ≤ r && r ≤ 0x200A) ||
  r = 0x2028 || r = 0x2029 || r = 0x202F || r = 0x205F || r = 0x3000

/-- Go `strings.TrimLeftFunc(s, unicode.IsSpace)`: drop leading runes while they
are white space. The first argument bounds the number of runes (`len(s)` suffices). -/
def TrimLeftSpace : Nat → List Byte → List Byte
  | 0, s => s
  | n + 1, s =>
    match s with
    | [] => []
    | _ :: _ =>
      let d := DecodeRune s
      if IsSpace d.1 then TrimLeftSpace n (s.drop d.2) else s

/-- Go `strings.TrimRightFunc(s, unicode.IsSpace)`: drop trailing runes while
they are white space. The first argument bounds the number of runes. -/
def TrimRightSpace : Nat → List Byte → List Byte
  | 0, s => s
  | n + 1, s =>
    match s with
    | [] => []
    | _ :: _ =>
      let d := DecodeLastRune s
      if IsSpace d.1 then TrimRightSpace n (s.take (s.length - d.2)) else s

/-- Go `strings.TrimSpace`: `s` without leading and trailing Unicode white space. -/
def TrimSpace (s : List Byte) : List Byte :=
  let t := TrimLeftSpace s.length s
  TrimRightSpace t.length t

/-! ## `getTitle` -/

/-- Loop `for i < len(input) && p(input[i]) { i++ }`. The first argument is the
unread part `input[i:]`, so the guarded read `input[i]` is its head and the test
`i < len(input)` is its being non-empty. Returns the final `i`. -/
def scanWhile (p : Byte → Bool) : List Byte → Nat → Nat
  | [], i => i
  | c :: rest, i => if p c then scanWhile p rest (i + 1) else i

/-- The test `input[i] == '\n' || input[i] == '\r'`. -/
def isNewline (c : Byte) : Bool := c == 10 || c == 13

/-- The test `input[i] != '\n' && input[i] != '\r'`. -/
def notNewline (c : Byte) : Bool := c != 10 && c != 13

/-- The test `input[i] == '='`. -/
def isEq (c : Byte) : Bool := c == 61

/-- The test `input[i] == ' ' || input[i] == '\t'`. -/
def isBlank (c : Byte) : Bool := c == 32 || c == 9

/-- The statement
`if input[i] == '\r' && i+1 < len(input) && input[i+1] == '\n' { i++ }`;
returns the new `i`. The first read `input[i]` is unguarded. -/
def skipCR (input : List Byte) (i : Nat) : Option Nat := do
  let c ← index input i
  if c == 13 && decide (i + 1 < input.length) then
    let d ← index input (i + 1)
    if d == 10 then pure (i + 1) else pure i
  else pure i

/-- The condition `len(line1) >= 3 && line1[0] == '#' && (line1[1] == ' ' || line1[1] == '\t')`. -/
def hasHashLead (line1 : List Byte) : Option Bool :=
  if 3 ≤ line1.length then do
    let a ← index line1 0
    if a == 35 then
      let b ← index line1 1
      pure (b == 32 || b == 9)
    else pure false
  else pure false

/-- The condition `i >= len(input) || input[i] != '='`. -/
def notEqAt (input : List Byte) (i : Nat) : Option Bool :=
  if i ≥ input.length then pure true
  else do
    let c ← index input i
    pure (c != 61)

/-- The condition `i >= len(input) || (input[i] != '\n' && input[i] != '\r')`. -/
def notNewlineAt (input : List Byte) (i : Nat) : Option Bool :=
  if i ≥ input.length then pure true
  else do
    let c ← index input i
    if c != 10 then
      let d ← index input i
      pure (d != 13)
    else pure false

/-- Go `getTitle(input []byte) string`; `none` is a run-time panic. -/
def getTitle (input : List Byte) : Option (List Byte) :=
  -- skip blank lines
  let i := scanWhile isNewline input 0
  if i ≥ input.length then some defaultTitle
  else do
    let i ← skipCR input i
    -- find the first line
    let start := i
    let i := scanWhile notNewline (input.drop i) i
    let line1 ← slice input start i
    let i ← skipCR input i
    let i := i + 1
    -- check for a prefix header
    if (← hasHashLead line1) then
      let t ← slice line1 2 line1.length
      pure (TrimSpace t)
    else
      -- check for an underlined header
      if (← notEqAt input i) then pure defaultTitle
      else
        let i := scanWhile isEq (input.drop i) i
        let i := scanWhile isBlank (input.drop i) i
        if (← notNewlineAt input i) then pure defaultTitle
        else pure (TrimSpace line1)

/-! ## Options and their normalisation -/

/-- Go `type md2html struct`: the options of the command. The field
`cmd *gcli.Command`, a handle to the command-line framework that only formats
error values, is not modelled. -/
structure md2html where
  toc : Bool
  page : Bool
  latex : Bool
  tocOnly : Bool
  fractions : Bool
  smartyPants : Bool
  latexDashes : Bool
  htmlSimple : Bool
  css : String
  driver : String
  output : String
  style : String
  deriving DecidableEq

/-- Go `const driverBF = "bf"`. -/
def driverBF : String := "bf"

/-- Go `const driverGM = "gm"`. -/
def driverGM : String := "gm"

/-- Go `var drivers = map[string]string{"bf": "blackfriday", "gm": "gomarkdown"}`:
the lookup `drivers[k]` with its presence flag. -/
def drivers (k : String) : Option String :=
  if k = "bf" then some "blackfriday"
  else if k = "gm" then some "gomarkdown"
  else none

/-- The option defaults registered by `ConvertMD2html`. -/
def defaultOptions : md2html :=
  { toc := false, tocOnly := false, page := false, latex := false,
    smartyPants := true, latexDashes := true, fractions := true, htmlSimple := true,
    css := "", output := "", driver := "bf", style := "" }

/-- The implied-option pass at the start of `md2html.Handle`
(`// enforce implied options`): three assignments in sequence. -/
def normalize (mh : md2html) : md2html :=
  let mh := if mh.css ≠ "" then { mh with page := true } else mh
  let mh := if mh.page then { mh with latex := false } else mh
  let mh := if mh.toc then { mh with latex := false } else mh
  mh

/-- Go `func (mh md2html) driverName() string`. A Go map read of a missing key
gives the zero value `""`. -/
def driverName (mh : md2html) : String :=
  match drivers mh.driver with
  | some name => name
  | none => (drivers driverBF).getD ""

/-! ## The rendering libraries and the operating system

The two Markdown packages and the file system are outside the repository. Their
flag constants and their functions are parameters of the model; what the
command does with them is recorded as a trace of events. -/

/-- The constants of package `blackfriday` that the command names. -/
structure BFFlags where
  HTMLFlagsNone : Nat
  Smartypants : Nat
  SmartypantsFractions : Nat
  SmartypantsLatexDashes : Nat
  CompletePage : Nat
  TOC : Nat
  CommonHTMLFlags : Nat
  CommonExtensions : Nat

/-- The constants of packages `gomarkdown/markdown/html` and
`gomarkdown/markdown/parser` that the command names. -/
structure GMFlags where
  Smartypants : Nat
  SmartypantsFractions : Nat
  SmartypantsLatexDashes : Nat
  CompletePage : Nat
  TOC : Nat
  NoIntraEmphasis : Nat
  Tables : Nat
  FencedCode : Nat
  Autolink : Nat
  Strikethrough : Nat
  SpaceHeadings : Nat

/-- The parameters handed to a renderer constructor:
`blackfriday.HTMLRendererParameters` and `html.RendererOptions`. -/
structure RendererParams where
  Flags : Nat
  Title : List Byte
  CSS : String
  deriving DecidableEq

/-- The two Markdown packages: their constants and their parse-and-render
functions (extensions, renderer parameters, input) to HTML bytes. -/
structure Lib where
  bf : BFFlags
  gm : GMFlags
  bfRender : Nat → RendererParams → List Byte → List Byte
  gmToHTML : Nat → RendererParams → List Byte → List Byte

/-- Where `outToWriter` writes: `os.Stdout` or the file created at a path. -/
inductive Dest where
  | stdout
  | file (path : String)
  deriving DecidableEq

/-- The operating system: `os.Create(path)` and `out.Write(data)`, each giving
the text of its error when it fails. -/
structure OS where
  create : String → Option String
  write : Dest → List Byte → Option String

/-- The error values built by `mh.cmd.Errorf` in `outToWriter`. -/
inductive GoError where
  | creating (path : String) (cause : String)
  | writing (cause : String)
  deriving DecidableEq

/-- What the command does to the outside world. -/
inductive Event where
  | println (words : List String)
  | bfRender (extensions : Nat) (params : RendererParams) (input : List Byte)
  | gmToHTML (extensions : Nat) (params : RendererParams) (input : List Byte)
  | create (path : String)
  | write (dest : Dest) (data : List Byte)
  | close (path : String)
  deriving DecidableEq

/-- The result of a call that returns: the returned `err` (`none` is Go `nil`)
and the events in order. -/
structure Run where
  err : Option GoError
  trace : List Event
  deriving DecidableEq

/-- The bytes of an ASCII string literal, Go `[]byte(s)`. -/
def bytes (s : String) : List Byte := s.toList.map Char.toNat

/-! ## Output writer and backends -/

/-- Go `func (mh md2html) outToWriter(htmlText []byte) (err error)`. -/
def outToWriter (O : OS) (mh : md2html) (htmlText : List Byte) : Run :=
  if mh.output = "" then
    let log := [Event.println ["OUTPUT:"], Event.write Dest.stdout htmlText]
    match O.write Dest.stdout htmlText with
    | some e => { err := some (GoError.writing e), trace := log }
    | none => { err := none, trace := log }
  else
    match O.create mh.output with
    | some e => { err := some (GoError.creating mh.output e),
                  trace := [Event.create mh.output] }
    | none =>
      let log := [Event.create mh.output, Event.write (Dest.file mh.output) htmlText,
        Event.close mh.output]
      match O.write (Dest.file mh.output) htmlText with
      | some e => { err := some (GoError.writing e), trace := log }
      | none => { err := none, trace := log }

/-- The local variable `htmlFlags` of `blackFriday` after its last update
(`if mh.toc { htmlFlags |= blackfriday.TOC }`). -/
def bfHtmlFlags (K : BFFlags) (mh : md2html) : Nat :=
  let htmlFlags := K.HTMLFlagsNone
  let htmlFlags := if mh.smartyPants then htmlFlags ||| K.Smartypants else htmlFlags
  let htmlFlags := if mh.fractions then htmlFlags ||| K.SmartypantsFractions else htmlFlags
  let htmlFlags := if mh.latexDashes then htmlFlags ||| K.SmartypantsLatexDashes else htmlFlags
  let htmlFlags := if mh.page then htmlFlags ||| K.CompletePage else htmlFlags
  let htmlFlags := if mh.toc then htmlFlags ||| K.TOC else htmlFlags
  htmlFlags

/-- The `blackfriday.HTMLRendererParameters` that `blackFriday` hands to
`blackfriday.NewHTMLRenderer`: `Flags: blackfriday.CommonHTMLFlags, Title: title`.
The local `htmlFlags` is computed and not handed over. `none` is a panic of
`getTitle`. -/
def bfParams (K : BFFlags) (mh : md2html) (input : List Byte) : Option RendererParams := do
  let _htmlFlags := bfHtmlFlags K mh
  let title ← if mh.page then getTitle input else pure []
  pure { Flags := K.CommonHTMLFlags, Title := title, CSS := "" }

/-- Go `func (mh md2html) blackFriday(input []byte, args []string) (err error)`;
`args` is not used by the body. The field `latex` is not read. -/
def blackFriday (L : Lib) (O : OS) (mh : md2html) (input : List Byte) : Option Run := do
  let params ← bfParams L.bf mh input
  let buf := L.bfRender L.bf.CommonExtensions params input
  let w := outToWriter O mh buf
  pure { err := w.err,
         trace := Event.bfRender L.bf.CommonExtensions params input :: w.trace }

/-- The `extensions` of `goMarkdown`. -/
def gmExtensions (K : GMFlags) : Nat :=
  K.NoIntraEmphasis ||| K.Tables ||| K.FencedCode ||| K.Autolink ||| K.Strikethrough |||
    K.SpaceHeadings

/-- The `html.RendererOptions` that `goMarkdown` hands to `html.NewRenderer` in
its HTML branch: `Flags: htmlFlags, Title: title, CSS: mh.css`, where `htmlFlags`
starts from the zero value. `none` is a panic of `getTitle`. -/
def gmParams (K : GMFlags) (mh : md2html) (input : List Byte) : Option RendererParams := do
  let htmlFlags := 0
  let htmlFlags := if mh.smartyPants then htmlFlags ||| K.Smartypants else htmlFlags
  let htmlFlags := if mh.fractions then htmlFlags ||| K.SmartypantsFractions else htmlFlags
  let htmlFlags := if mh.latexDashes then htmlFlags ||| K.SmartypantsLatexDashes else htmlFlags
  let title ← if mh.page then getTitle input else pure []
  let htmlFlags := if mh.page then htmlFlags ||| K.CompletePage else htmlFlags
  let htmlFlags := if mh.toc then htmlFlags ||| K.TOC else htmlFlags
  pure { Flags := htmlFlags, Title := title, CSS := mh.css }

/-- Go `func (mh md2html) goMarkdown(input []byte, args []string) (err error)`;
`args` is not used by the body. With `mh.latex` set it prints `unsupported` and
returns the named result `err`, which is still `nil`. -/
def goMarkdown (L : Lib) (O : OS) (mh : md2html) (input : List Byte) : Option Run :=
  let extensions := gmExtensions L.gm
  if mh.latex then
    some { err := none, trace := [Event.println ["unsupported"]] }
  else do
    let params ← gmParams L.gm mh input
    let htmlBts := L.gmToHTML extensions params input
    let w := outToWriter O mh htmlBts
    pure { err := w.err, trace := Event.gmToHTML extensions params input :: w.trace }

/-- The Markdown text `mdString` that `Handle` renders. -/
def mdString : List Byte := bytes "\n# title\n\n## h2\n\nhello\n\n### h3\n"

/-- A run with the events `log` put before its own. -/
def Run.after (log : List Event) (r : Run) : Run :=
  { err := r.err, trace := log ++ r.trace }

/-- Go `func (mh md2html) Handle(c *gcli.Command, args []string) (err error)`;
`workDir` is the value of `c.WorkDir()`. -/
def Handle (L : Lib) (O : OS) (workDir : String) (mh : md2html) : Option Run := do
  let mh := normalize mh
  let log := [Event.println ["Work Dir:", workDir],
    Event.println ["Use Driver:", driverName mh]]
  let r ← if mh.driver = driverBF then blackFriday L O mh mdString
          else goMarkdown L O mh mdString
  pure (r.after log)

/-! ## Concrete instances, for closed examples

The general statements below quantify over the libraries and the operating
system; these instances only serve to evaluate them at a concrete input. -/

/-- A table of single-bit flag values in the declaration order of package
`blackfriday` (`1 << iota`), with `CommonHTMLFlags` the union of `UseXHTML` and
the four Smartypants flags. -/
def sampleBF : BFFlags :=
  { HTMLFlagsNone := 0, Smartypants := 1 <<< 12, SmartypantsFractions := 1 <<< 13,
    SmartypantsLatexDashes := 1 <<< 15, CompletePage := 1 <<< 9, TOC := 1 <<< 18,
    CommonHTMLFlags := (1 <<< 10) ||| (1 <<< 12) ||| (1 <<< 13) ||| (1 <<< 14) ||| (1 <<< 15),
    CommonExtensions := 102590 }

/-- A table of single-bit flag values in the declaration order of packages
`gomarkdown/markdown/html` and `gomarkdown/markdown/parser`. -/
def sampleGM : GMFlags :=
  { Smartypants := 1 <<< 13, SmartypantsFractions := 1 <<< 14,
    SmartypantsLatexDashes := 1 <<< 16, CompletePage := 1 <<< 9, TOC := 1 <<< 19,
    NoIntraEmphasis := 1 <<< 1, Tables := 1 <<< 2, FencedCode := 1 <<< 3,
    Autolink := 1 <<< 4, Strikethrough := 1 <<< 5, SpaceHeadings := 1 <<< 7 }

/-- Libraries with the sample flag tables and stand-in renderers that return
the input unchanged. -/
def sampleLib : Lib :=
  { bf := sampleBF, gm := sampleGM,
    bfRender := fun _ _ input => input,
    gmToHTML := fun _ _ input => input }

/-- An operating system on which every `os.Create` and `Write` succeeds. -/
def okOS : OS :=
  { create := fun _ => none, write := fun _ _ => none }

/-! ## Vocabulary of the title claims -/

/-- Only line-break bytes (`\n`, `\r`): a run of blank lines. -/
def Blank (bs : List Byte) : Prop := ∀ b ∈ bs, b = 10 ∨ b = 13

/-- A non-empty line body: no line-break byte in it. -/
def LineBody (L : List Byte) : Prop := L ≠ [] ∧ ∀ b ∈ L, b ≠ 10 ∧ b ≠ 13

/-- The line starts with `#` followed by a space or a tab. -/
def HashStart (L : List Byte) : Prop :=
  L[0]? = some 35 ∧ (L[1]? = some 32 ∨ L[1]? = some 9)

/-- The bytes `term` are the whole line break before `next`: `\n`, `\r\n`, or a
`\r` that is not the first half of a `\r\n`. -/
def LineBreak (term next : List Byte) : Prop :=
  term = [10] ∨ term = [13, 10] ∨ (term = [13] ∧ next.head? ≠ some 10)

/-- The bytes `next` begin with a line of one or more `=`, optionally followed by
spaces or tabs, followed by a line break (`\n` or `\r`). -/
def Underline (next : List Byte) : Prop :=
  ∃ eqs ws u tail, eqs ≠ [] ∧ (∀ b ∈ eqs, b = 61) ∧ (∀ b ∈ ws, b = 32 ∨ b = 9) ∧
    (u = 10 ∨ u = 13) ∧ next = eqs ++ ws ++ u :: tail

/-- The UTF-8 encodings of the Unicode white space characters: U+0009 to U+000D,
U+0020, U+0085, U+00A0, U+1680, U+2000 to U+200A, U+2028, U+2029, U+202F, U+205F
and U+3000. -/
def spaceEncodings : List (List Byte) :=
  [[0x09], [0x0A], [0x0B], [0x0C], [0x0D], [0x20], [0xC2, 0x85], [0xC2, 0xA0],
   [0xE1, 0x9A, 0x80],
   [0xE2, 0x80, 0x80], [0xE2, 0x80, 0x81], [0xE2, 0x80, 0x82], [0xE2, 0x80, 0x83],
   [0xE2, 0x80, 0x84], [0xE2, 0x80, 0x85], [0xE2, 0x80, 0x86], [0xE2, 0x80, 0x87],
   [0xE2, 0x80, 0x88], [0xE2, 0x80, 0x89], [0xE2, 0x80, 0x8A],
   [0xE2, 0x80, 0xA8], [0xE2, 0x80, 0xA9], [0xE2, 0x80, 0xAF], [0xE2, 0x81, 0x9F],
   [0xE3, 0x80, 0x80]]

/-- A run of white space: a concatenation of encoded white space characters. -/
inductive SpaceRun : List Byte → Prop
  | nil : SpaceRun []
  | cons (c w : List Byte) : c ∈ spaceEncodings → SpaceRun w → SpaceRun (c ++ w)

/-- The string `t` is `s` with surrounding white space trimmed: `s` is a run of
white space, then `t`, then a run of white space, and `t` neither begins nor ends
with a white space character. -/
def Trimmed (s t : List Byte) : Prop :=
  ∃ pre post, s = pre ++ t ++ post ∧ SpaceRun pre ∧ SpaceRun post ∧
    (∀ c ∈ spaceEncodings, ¬ c <+: t) ∧ (∀ c ∈ spaceEncodings, ¬ c <:+ t)

instance (bs : List Byte) : Decidable (Blank bs) :=
  inferInstanceAs (Decidable (∀ b ∈ bs, b = 10 ∨ b = 13))

instance (L : List Byte) : Decidable (LineBody L) :=
  inferInstanceAs (Decidable (L ≠ [] ∧ ∀ b ∈ L, b ≠ 10 ∧ b ≠ 13))

instance (L : List Byte) : Decidable (HashStart L) :=
  inferInstanceAs (Decidable (L[0]? = some 35 ∧ (L[1]? = some 32 ∨ L[1]? = some 9)))

instance (term next : List Byte) : Decidable (LineBreak term next) :=
  inferInstanceAs
    (Decidable (term = [10] ∨ term = [13, 10] ∨ (term = [13] ∧ next.head? ≠ some 10)))

/-! ## Auxiliary functions: the value of `getTitle` once the first line is known -/

/-- Whether the first byte of `xs` exists and satisfies `p`. -/
def headIs (p : Byte → Bool) (xs : List Byte) : Bool :=
  match xs with
  | [] => false
  | c :: _ => p c

/-- The input after the line break that starts with `t`: when `t` is `\r` and a
`\n` follows, the pair is one line break. -/
def afterBreak (t : Byte) (rest : List Byte) : List Byte :=
  if t = 13 ∧ rest.head? = some 10 then rest.tail else rest

/-- The line has at least three bytes and starts with `#` and a space or tab. -/
def hashLead (L : List Byte) : Bool :=
  decide (3 ≤ L.length) && L[0]? == some 35 && (L[1]? == some 32 || L[1]? == some 9)

/-- The bytes `next` start with a run of `=`, then spaces or tabs, then `\n` or `\r`. -/
def underlined (next : List Byte) : Bool :=
  headIs isEq next && headIs isNewline ((next.dropWhile isEq).dropWhile isBlank)

/-- The title computed from the first non-blank line `L` and the bytes `next`
that follow its line break. -/
def titleOf (L next : List Byte) : List Byte :=
  if hashLead L then TrimSpace (L.drop 2)
  else if underlined next then TrimSpace L
  else defaultTitle

/-! ## The iteration bounds of the trimming loops are enough -/

theorem DecodeRune_width_pos (s : List Byte) (h : s ≠ []) : 1 ≤ (DecodeRune s).2 := by
  obtain ⟨s0, t, rfl⟩ := List.exists_cons_of_ne_nil h
  unfold DecodeRune
  dsimp only
  repeat' split
  all_goals simp

theorem lastRuneStart_le (s : List Byte) (lim : Int) (n : Nat) (start : Int) :
    lastRuneStart s lim n start ≤ start := by
  induction n generalizing start with
  | zero => simp [lastRuneStart]
  | succ n ih =>
    unfold lastRuneStart
    split_ifs
    · exact le_refl _
    · exact le_refl _
    · have := ih (start - 1)
      omega

theorem width_pos_of_ends (start e : Nat) (d : Nat × Nat) (h : start < e) :
    1 ≤ (if start + d.2 ≠ e then (RuneError, 1) else d).2 := by
  split_ifs with h1
  · simp
  · simp only [ne_eq, not_not] at h1
    omega

theorem DecodeLastRune_width_pos (s : List Byte) (h : s ≠ []) : 1 ≤ (DecodeLastRune s).2 := by
  have hlen : 0 < s.length := List.length_pos.mpr h
  unfold DecodeLastRune
  dsimp only
  generalize (if (s.length : Int) - 4 < 0 then (0 : Int) else (s.length : Int) - 4) = lim
  have hle := lastRuneStart_le s lim 5 ((s.length : Int) - 2)
  generalize lastRuneStart s lim 5 ((s.length : Int) - 2) = start0 at hle ⊢
  split
  · omega
  · split
    · simp
    · apply width_pos_of_ends
      split_ifs <;> omega

/-- The bound `len(s)` on the iterations of `TrimLeftSpace` is never reached
early: every larger bound gives the same result. -/
theorem TrimLeftSpace_bound (n m : Nat) (s : List Byte) (hn : s.length ≤ n)
    (hm : s.length ≤ m) : TrimLeftSpace n s = TrimLeftSpace m s := by
  induction n generalizing m s with
  | zero =>
    have : s = [] := List.length_eq_zero.mp (by omega)
    subst this
    cases m <;> rfl
  | succ n ih =>
    cases s with
    | nil => cases m <;> rfl
    | cons c t =>
      cases m with
      | zero => simp at hm
      | succ m =>
        have hw := DecodeRune_width_pos (c :: t) (by simp)
        simp only [TrimLeftSpace]
        split_ifs
        · apply ih
          · simp only [List.length_drop, List.length_cons] at *
            omega
          · simp only [List.length_drop, List.length_cons] at *
            omega
        · rfl

/-- The bound `len(s)` on the iterations of `TrimRightSpace` is never reached
early: every larger bound gives the same result. -/
theorem TrimRightSpace_bound (n m : Nat) (s : List Byte) (hn : s.length ≤ n)
    (hm : s.length ≤ m) : TrimRightSpace n s = TrimRightSpace m s := by
  induction n generalizing m s with
  | zero =>
    have : s = [] := List.length_eq_zero.mp (by omega)
    subst this
    cases m <;> rfl
  | succ n ih =>
    cases s with
    | nil => cases m <;> rfl
    | cons c t =>
      cases m with
      | zero => simp at hm
      | succ m =>
        have hw := DecodeLastRune_width_pos (c :: t) (by simp)
        simp only [TrimRightSpace]
        split_ifs
        · apply ih
          · simp only [List.length_take, List.length_cons] at *
            omega
          · simp only [List.length_take, List.length_cons] at *
            omega
        · rfl

/-! ## `TrimSpace` trims: the decoder against the table of white space -/

theorem IsSpace_le (r : Nat) (h : IsSpace r = true) : r ≤ 0x3000 := by
  simp only [IsSpace, Bool.or_eq_true, decide_eq_true_eq, Bool.and_eq_true] at h
  omega

theorem le_lor_left (x y : Nat) : x ≤ x ||| y := by
  have h : (x ||| y) &&& x = x := by
    apply Nat.eq_of_testBit_eq
    intro i
    rw [Nat.testBit_and, Nat.testBit_or]
    cases x.testBit i <;> cases y.testBit i <;> rfl
  calc x = (x ||| y) &&& x := h.symm
    _ ≤ x ||| y := Nat.and_le_left

/-- A one-byte rune that is white space is in the table. -/
theorem space_one (a : Nat) (ha : a < 0x80) (h : IsSpace a = true) :
    [a] ∈ spaceEncodings := by
  simp only [IsSpace, Bool.or_eq_true, decide_eq_true_eq, Bool.and_eq_true] at h
  have : a = 9 ∨ a = 10 ∨ a = 11 ∨ a = 12 ∨ a = 13 ∨ a = 32 := by omega
  rcases this with rfl | rfl | rfl | rfl | rfl | rfl <;> decide

theorem space_two_table : ∀ a ∈ List.range 30, ∀ b ∈ List.range 64,
    IsSpace ((((0xC2 + a) &&& 0x1F) <<< 6) ||| ((0x80 + b) &&& 0x3F)) = true →
      [0xC2 + a, 0x80 + b] ∈ spaceEncodings := by
  decide!

/-- A two-byte rune that is white space is in the table. -/
theorem space_two (s0 s1 : Nat) (h0 : 0xC2 ≤ s0) (h0' : s0 < 0xE0)
    (h1 : 0x80 ≤ s1) (h1' : s1 ≤ 0xBF)
    (h : IsSpace (((s0 &&& 0x1F) <<< 6) ||| (s1 &&& 0x3F)) = true) :
    [s0, s1] ∈ spaceEncodings := by
  have := space_two_table (s0 - 0xC2) (List.mem_range.mpr (by omega)) (s1 - 0x80)
    (List.mem_range.mpr (by omega))
  have e0 : 0xC2 + (s0 - 0xC2) = s0 := by omega
  have e1 : 0x80 + (s1 - 0x80) = s1 := by omega
  rw [e0, e1] at this
  exact this h

theorem rune3_high : ∀ a ∈ List.range 16, ∀ b ∈ List.range 64,
    (((0xE0 + a) &&& 0x0F) <<< 12) ||| (((0x80 + b) &&& 0x3F) <<< 6) = 2 ^ 6 * (64 * a + b) := by
  decide!

theorem cont_low : ∀ c ∈ List.range 64, (0x80 + c) &&& 0x3F = c := by
  decide!

/-- The value of a three-byte rune. -/
theorem rune3_eq (s0 s1 s2 : Nat) (h0 : 0xE0 ≤ s0) (h0' : s0 < 0xF0)
    (h1 : 0x80 ≤ s1) (h1' : s1 ≤ 0xBF) (h2 : 0x80 ≤ s2) (h2' : s2 ≤ 0xBF) :
    ((s0 &&& 0x0F) <<< 12) ||| ((s1 &&& 0x3F) <<< 6) ||| (s2 &&& 0x3F)
      = 4096 * (s0 - 0xE0) + 64 * (s1 - 0x80) + (s2 - 0x80) := by
  have hh := rune3_high (s0 - 0xE0) (List.mem_range.mpr (by omega)) (s1 - 0x80)
    (List.mem_range.mpr (by omega))
  have hl := cont_low (s2 - 0x80) (List.mem_range.mpr (by omega))
  have e0 : 0xE0 + (s0 - 0xE0) = s0 := by omega
  have e1 : 0x80 + (s1 - 0x80) = s1 := by omega
  have e2 : 0x80 + (s2 - 0x80) = s2 := by omega
  rw [e0, e1] at hh
  rw [e2] at hl
  rw [hh, hl, ← Nat.mul_add_lt_is_or (by omega : s2 - 0x80 < 2 ^ 6)]
  omega

/-- A three-byte rune that is white space is in the table. -/
theorem space_three (s0 s1 s2 : Nat) (h0 : 0xE0 ≤ s0) (h0' : s0 < 0xF0)
    (h1 : 0x80 ≤ s1) (h1' : s1 ≤ 0xBF) (hlo : s0 = 0xE0 → 0xA0 ≤ s1)
    (h2 : 0x80 ≤ s2) (h2' : s2 ≤ 0xBF)
    (h : IsSpace (((s0 &&& 0x0F) <<< 12) ||| ((s1 &&& 0x3F) <<< 6) ||| (s2 &&& 0x3F)) = true) :
    [s0, s1, s2] ∈ spaceEncodings := by
  rw [rune3_eq s0 s1 s2 h0 h0' h1 h1' h2 h2'] at h
  simp only [IsSpace, Bool.or_eq_true, decide_eq_true_eq, Bool.and_eq_true] at h
  simp only [or_assoc] at h
  rcases h with h | h | h | h | h | h | h | h | h | h | h | h | h | h | h
  · exfalso; omega
  · exfalso; omega
  · exfalso; omega
  · exfalso; omega
  · exfalso; omega
  · exfalso; omega
  · exfalso; omega
  · exfalso; omega
  · obtain ⟨rfl, rfl, rfl⟩ : s0 = 0xE1 ∧ s1 = 0x9A ∧ s2 = 0x80 := by omega
    decide
  · obtain ⟨rfl, rfl, h3⟩ : s0 = 0xE2 ∧ s1 = 0x80 ∧ s2 ≤ 0x8A := by omega
    interval_cases s2 <;> decide
  · obtain ⟨rfl, rfl, rfl⟩ : s0 = 0xE2 ∧ s1 = 0x80 ∧ s2 = 0xA8 := by omega
    decide
  · obtain ⟨rfl, rfl, rfl⟩ : s0 = 0xE2 ∧ s1 = 0x80 ∧ s2 = 0xA9 := by omega
    decide
  · obtain ⟨rfl, rfl, rfl⟩ : s0 = 0xE2 ∧ s1 = 0x80 ∧ s2 = 0xAF := by omega
    decide
  · obtain ⟨rfl, rfl, rfl⟩ : s0 = 0xE2 ∧ s1 = 0x81 ∧ s2 = 0x9F := by omega
    decide
  · obtain ⟨rfl, rfl, rfl⟩ : s0 = 0xE3 ∧ s1 = 0x80 ∧ s2 = 0x80 := by omega
    decide

theorem rune4_high : ∀ a ∈ List.range 5, ∀ b ∈ List.range 64, (a ≠ 0 ∨ 16 ≤ b) →
    0x10000 ≤ (((0xF0 + a) &&& 0x07) <<< 18) ||| (((0x80 + b) &&& 0x3F) <<< 12) := by
  decide!

/-- A four-byte rune is not white space. -/
theorem not_space_four (s0 s1 s2 s3 : Nat) (h0 : 0xF0 ≤ s0) (h0' : s0 < 0xF5)
    (h1 : 0x80 ≤ s1) (h1' : s1 ≤ 0xBF) (hlo : s0 = 0xF0 → 0x90 ≤ s1) :
    IsSpace (((s0 &&& 0x07) <<< 18) ||| ((s1 &&& 0x3F) <<< 12) ||| ((s2 &&& 0x3F) <<< 6)
      ||| (s3 &&& 0x3F)) = false := by
  have hh := rune4_high (s0 - 0xF0) (List.mem_range.mpr (by omega)) (s1 - 0x80)
    (List.mem_range.mpr (by omega)) (by omega)
  have e0 : 0xF0 + (s0 - 0xF0) = s0 := by omega
  have e1 : 0x80 + (s1 - 0x80) = s1 := by omega
  rw [e0, e1] at hh
  by_contra hsp
  have hle := IsSpace_le _ (by simpa using hsp)
  have l1 := le_lor_left (((s0 &&& 0x07) <<< 18) ||| ((s1 &&& 0x3F) <<< 12))
    ((s2 &&& 0x3F) <<< 6)
  have l2 := le_lor_left ((((s0 &&& 0x07) <<< 18) ||| ((s1 &&& 0x3F) <<< 12)) |||
    ((s2 &&& 0x3F) <<< 6)) (s3 &&& 0x3F)
  omega

theorem not_IsSpace_RuneError : IsSpace RuneError = false := by decide

theorem isCont_iff (b : Nat) : isCont b = true ↔ 0x80 ≤ b ∧ b ≤ 0xBF := by
  simp [isCont]

/-- When the first rune of `s` is white space, the bytes it is decoded from are
an entry of the table, and they lie within `s`. -/
theorem DecodeRune_space (s : List Nat) (h : IsSpace (DecodeRune s).1 = true) :
    s.take (DecodeRune s).2 ∈ spaceEncodings ∧ (DecodeRune s).2 ≤ s.length := by
  have hE : ¬ (IsSpace RuneError = true) := by decide
  cases s with
  | nil => exact absurd h hE
  | cons s0 t =>
    by_cases h1 : s0 < 0x80
    · have e : DecodeRune (s0 :: t) = (s0, 1) := by simp [DecodeRune, h1]
      rw [e] at h ⊢
      exact ⟨by simpa using space_one s0 h1 h, by simp⟩
    by_cases h2 : s0 < 0xC2
    · have e : DecodeRune (s0 :: t) = (RuneError, 1) := by simp [DecodeRune, h1, h2]
      rw [e] at h
      exact absurd h hE
    by_cases h3 : s0 < 0xE0
    · cases t with
      | nil =>
        have e : DecodeRune [s0] = (RuneError, 1) := by simp [DecodeRune, h1, h2, h3]
        rw [e] at h
        exact absurd h hE
      | cons s1 t' =>
        by_cases hc : isCont s1 = true
        · have e : DecodeRune (s0 :: s1 :: t')
              = (((s0 &&& 0x1F) <<< 6) ||| (s1 &&& 0x3F), 2) := by
            simp [DecodeRune, h1, h2, h3, hc]
          rw [e] at h ⊢
          have hc' := (isCont_iff s1).mp hc
          have m := space_two s0 s1 (by omega) h3 hc'.1 hc'.2 h
          exact ⟨by simpa using m, by simp⟩
        · have e : DecodeRune (s0 :: s1 :: t') = (RuneError, 1) := by
            simp [DecodeRune, h1, h2, h3, hc]
          rw [e] at h
          exact absurd h hE
    by_cases h4 : s0 < 0xF0
    · match t with
      | [] =>
        have e : DecodeRune [s0] = (RuneError, 1) := by simp [DecodeRune, h1, h2, h3, h4]
        rw [e] at h
        exact absurd h hE
      | [s1] =>
        have e : DecodeRune [s0, s1] = (RuneError, 1) := by
          simp [DecodeRune, h1, h2, h3, h4]
        rw [e] at h
        exact absurd h hE
      | s1 :: s2 :: t' =>
        by_cases hr : s1 < (if s0 = 0xE0 then 0xA0 else 0x80) ∨
            (if s0 = 0xED then 0x9F else 0xBF) < s1
        · have e : DecodeRune (s0 :: s1 :: s2 :: t') = (RuneError, 1) := by
            simp [DecodeRune, h1, h2, h3, h4, hr]
          rw [e] at h
          exact absurd h hE
        by_cases hc : isCont s2 = true
        · have e : DecodeRune (s0 :: s1 :: s2 :: t')
              = (((s0 &&& 0x0F) <<< 12) ||| ((s1 &&& 0x3F) <<< 6) ||| (s2 &&& 0x3F), 3) := by
            simp [DecodeRune, h1, h2, h3, h4, hr, hc]
          rw [e] at h ⊢
          have hc' := (isCont_iff s2).mp hc
          have r1 : 0x80 ≤ s1 ∧ s1 ≤ 0xBF ∧ (s0 = 0xE0 → 0xA0 ≤ s1) := by
            split_ifs at hr <;> omega
          have m := space_three s0 s1 s2 (by omega) h4 r1.1 r1.2.1 r1.2.2 hc'.1 hc'.2 h
          exact ⟨by simpa using m, by simp⟩
        · have e : DecodeRune (s0 :: s1 :: s2 :: t') = (RuneError, 1) := by
            simp [DecodeRune, h1, h2, h3, h4, hr, hc]
          rw [e] at h
          exact absurd h hE
    by_cases h5 : s0 < 0xF5
    · match t with
      | [] =>
        have e : DecodeRune [s0] = (RuneError, 1) := by
          simp [DecodeRune, h1, h2, h3, h4, h5]
        rw [e] at h
        exact absurd h hE
      | [s1] =>
        have e : DecodeRune [s0, s1] = (RuneError, 1) := by
          simp [DecodeRune, h1, h2, h3, h4, h5]
        rw [e] at h
        exact absurd h hE
      | [s1, s2] =>
        have e : DecodeRune [s0, s1, s2] = (RuneError, 1) := by
          simp [DecodeRune, h1, h2, h3, h4, h5]
        rw [e] at h
        exact absurd h hE
      | s1 :: s2 :: s3 :: t' =>
        by_cases hr : s1 < (if s0 = 0xF0 then 0x90 else 0x80) ∨
            (if s0 = 0xF4 then 0x8F else 0xBF) < s1
        · have e : DecodeRune (s0 :: s1 :: s2 :: s3 :: t') = (RuneError, 1) := by
            simp [DecodeRune, h1, h2, h3, h4, h5, hr]
          rw [e] at h
          exact absurd h hE
        have r1 : 0x80 ≤ s1 ∧ s1 ≤ 0xBF ∧ (s0 = 0xF0 → 0x90 ≤ s1) := by
          split_ifs at hr <;> omega
        have hns := not_space_four s0 s1 s2 s3 (by omega) h5 r1.1 r1.2.1 r1.2.2
        by_cases hc2 : isCont s2 = true
        · by_cases hc3 : isCont s3 = true
          · have e : DecodeRune (s0 :: s1 :: s2 :: s3 :: t')
                = (((s0 &&& 0x07) <<< 18) ||| ((s1 &&& 0x3F) <<< 12) |||
                    ((s2 &&& 0x3F) <<< 6) ||| (s3 &&& 0x3F), 4) := by
              simp [DecodeRune, h1, h2, h3, h4, h5, hr, hc2, hc3]
            rw [e] at h
            rw [hns] at h
            exact absurd h (by simp)
          · have e : DecodeRune (s0 :: s1 :: s2 :: s3 :: t') = (RuneError, 1) := by
              simp [DecodeRune, h1, h2, h3, h4, h5, hr, hc2, hc3]
            rw [e] at h
            exact absurd h hE
        · have e : DecodeRune (s0 :: s1 :: s2 :: s3 :: t') = (RuneError, 1) := by
            simp [DecodeRune, h1, h2, h3, h4, h5, hr, hc2]
          rw [e] at h
          exact absurd h hE
    · have e : DecodeRune (s0 :: t) = (RuneError, 1) := by
        simp [DecodeRune, h1, h2, h3, h4, h5]
      rw [e] at h
      exact absurd h hE

/-- Every entry of the table decodes to a white space rune, whatever follows it. -/
theorem DecodeRune_of_space (c x : List Nat) (hc : c ∈ spaceEncodings) :
    IsSpace (DecodeRune (c ++ x)).1 = true ∧ (DecodeRune (c ++ x)).2 = c.length := by
  simp only [spaceEncodings, List.mem_cons, List.mem_singleton, List.not_mem_nil,
    or_false] at hc
  rcases hc with rfl | rfl | rfl | rfl | rfl | rfl | rfl | rfl | rfl | rfl | rfl | rfl | rfl | rfl | rfl | rfl | rfl | rfl | rfl | rfl | rfl | rfl | rfl | rfl | rfl <;> exact ⟨rfl, rfl⟩

theorem drop_length_sub_one (s : List Nat) (h : s ≠ []) :
    s.drop (s.length - 1) = [s.getD (s.length - 1) 0] := by
  have hlen : 0 < s.length := List.length_pos.mpr h
  have hlt : s.length - 1 < s.length := by omega
  rw [List.drop_eq_getElem_cons hlt]
  have e : s.length - 1 + 1 = s.length := by omega
  simp [e, List.getD_eq_getElem?_getD, List.getElem?_eq_getElem hlt]

/-- When the last rune of `s` is white space, the bytes it is decoded from are an
entry of the table, and they are the end of `s`. -/
theorem DecodeLastRune_space (s : List Nat) (h : IsSpace (DecodeLastRune s).1 = true) :
    s.drop (s.length - (DecodeLastRune s).2) ∈ spaceEncodings ∧
      (DecodeLastRune s).2 ≤ s.length := by
  have hE : ¬ (IsSpace RuneError = true) := by decide
  unfold DecodeLastRune at h ⊢
  dsimp only at h ⊢
  generalize (if (s.length : Int) - 4 < 0 then (0 : Int) else (s.length : Int) - 4) = lim
    at h ⊢
  generalize (if lastRuneStart s lim 5 ((s.length : Int) - 2) < 0 then 0
    else (lastRuneStart s lim 5 ((s.length : Int) - 2)).toNat) = start at h ⊢
  by_cases h0 : s.length = 0
  · rw [if_pos h0] at h
    exact absurd h hE
  rw [if_neg h0] at h ⊢
  have hne : s ≠ [] := fun hs => h0 (by simp [hs])
  by_cases h1 : s.getD (s.length - 1) 0 < 0x80
  · rw [if_pos h1] at h ⊢
    refine ⟨?_, by simp only; omega⟩
    show s.drop (s.length - 1) ∈ spaceEncodings
    rw [drop_length_sub_one s hne]
    exact space_one _ h1 h
  rw [if_neg h1] at h ⊢
  by_cases h2 : start + (DecodeRune (s.drop start)).2 ≠ s.length
  · rw [if_pos h2] at h
    exact absurd h hE
  rw [if_neg h2] at h ⊢
  have h2' : start + (DecodeRune (s.drop start)).2 = s.length := by
    simpa using h2
  have hd := DecodeRune_space (s.drop start) h
  have e1 : s.length - (DecodeRune (s.drop start)).2 = start := by omega
  have e2 : (s.drop start).length = (DecodeRune (s.drop start)).2 := by
    rw [List.length_drop]; omega
  refine ⟨?_, by omega⟩
  rw [e1]
  have e3 : (s.drop start).take (DecodeRune (s.drop start)).2 = s.drop start :=
    List.take_of_length_le (by omega)
  rw [e3] at hd
  exact hd.1

theorem lastRuneStart_stop (s : List Nat) (lim : Int) (n : Nat) (start : Int)
    (h1 : ¬ start < lim) (h2 : RuneStart (s.getD start.toNat 0) = true) :
    lastRuneStart s lim (n + 1) start = start := by
  rw [lastRuneStart, if_neg h1, if_pos h2]

theorem lastRuneStart_step (s : List Nat) (lim : Int) (n : Nat) (start : Int)
    (h1 : ¬ start < lim) (h2 : RuneStart (s.getD start.toNat 0) = false) :
    lastRuneStart s lim (n + 1) start = lastRuneStart s lim n (start - 1) := by
  rw [lastRuneStart, if_neg h1, if_neg (by rw [h2]; decide)]

theorem getD_append_at (y c : List Nat) (k : Nat) :
    (y ++ c).getD (y.length + k) 0 = c.getD k 0 := by
  simp [List.getD_eq_getElem?_getD, List.getElem?_append_right]

/-- The last rune of a string that ends with the one-byte rune `a`. -/
theorem DecodeLastRune_one (y : List Nat) (a : Nat) (h : a < 0x80) :
    DecodeLastRune (y ++ [a]) = (a, 1) := by
  have hlen : (y ++ [a]).length = y.length + 1 := by simp
  have hg : (y ++ [a]).getD (y.length + 1 - 1) 0 = a := by
    have := getD_append_at y [a] 0
    simp only [Nat.add_zero, List.getD_cons_zero] at this
    rw [Nat.add_sub_cancel]
    exact this
  unfold DecodeLastRune
  simp only [hlen, hg, h, if_true]
  simp

/-- The last rune of a string that ends with a lead byte `a` and one more byte. -/
theorem DecodeLastRune_two (y : List Nat) (a b : Nat) (hb : ¬ b < 0x80)
    (ha : RuneStart a = true) :
    DecodeLastRune (y ++ [a, b]) =
      (if (DecodeRune [a, b]).2 ≠ 2 then (RuneError, 1) else DecodeRune [a, b]) := by
  have hlen : (y ++ [a, b]).length = y.length + 2 := by simp
  have hg : (y ++ [a, b]).getD (y.length + 2 - 1) 0 = b := by
    have := getD_append_at y [a, b] 1
    simpa using this
  have hs : ∀ lim : Int, lim ≤ (y.length : Int) →
      lastRuneStart (y ++ [a, b]) lim 5 (((y.length + 2 : Nat) : Int) - 2) = (y.length : Int) := by
    intro lim hl
    have e : (((y.length + 2 : Nat) : Int) - 2) = (y.length : Int) := by omega
    rw [e]
    apply lastRuneStart_stop
    · omega
    · have := getD_append_at y [a, b] 0
      simp only [Nat.add_zero] at this
      simp only [Int.toNat_ofNat, this]
      simpa using ha
  unfold DecodeLastRune
  simp only [hlen, hg, hb, if_false]
  generalize hlim : (if (((y.length + 2 : Nat) : Int) - 4 < 0) then (0 : Int)
    else ((y.length + 2 : Nat) : Int) - 4) = lim
  have hl : lim ≤ (y.length : Int) := by
    rw [← hlim]
    split_ifs <;> omega
  rw [hs lim hl]
  have hneg : ¬ ((y.length : Int) < 0) := by omega
  simp only [hneg, if_false, Int.toNat_ofNat, List.drop_left]
  have e : ¬ (y.length + 2 = 0) := by omega
  simp only [e, if_false]
  by_cases h2 : (DecodeRune [a, b]).2 = 2
  · simp [h2]
  · have : ¬ (y.length + (DecodeRune [a, b]).2 = y.length + 2) := by omega
    simp [h2, this]

/-- The last rune of a string that ends with a lead byte `a`, a continuation
byte `b` and one more byte. -/
theorem DecodeLastRune_three (y : List Nat) (a b c : Nat) (hc : ¬ c < 0x80)
    (hb : RuneStart b = false) (ha : RuneStart a = true) :
    DecodeLastRune (y ++ [a, b, c]) =
      (if (DecodeRune [a, b, c]).2 ≠ 3 then (RuneError, 1) else DecodeRune [a, b, c]) := by
  have hlen : (y ++ [a, b, c]).length = y.length + 3 := by simp
  have hg : (y ++ [a, b, c]).getD (y.length + 3 - 1) 0 = c := by
    have := getD_append_at y [a, b, c] 2
    simpa using this
  have hs : ∀ lim : Int, lim ≤ (y.length : Int) →
      lastRuneStart (y ++ [a, b, c]) lim 5 (((y.length + 3 : Nat) : Int) - 2)
        = (y.length : Int) := by
    intro lim hl
    have e : (((y.length + 3 : Nat) : Int) - 2) = ((y.length + 1 : Nat) : Int) := by omega
    rw [e, lastRuneStart_step]
    · have e' : (((y.length + 1 : Nat) : Int) - 1) = (y.length : Int) := by omega
      rw [e']
      apply lastRuneStart_stop
      · omega
      · have := getD_append_at y [a, b, c] 0
        simp only [Nat.add_zero] at this
        simp only [Int.toNat_ofNat, this]
        simpa using ha
    · omega
    · have := getD_append_at y [a, b, c] 1
      simp only [Int.toNat_ofNat, this]
      simpa using hb
  unfold DecodeLastRune
  simp only [hlen, hg, hc, if_false]
  generalize hlim : (if (((y.length + 3 : Nat) : Int) - 4 < 0) then (0 : Int)
    else ((y.length + 3 : Nat) : Int) - 4) = lim
  have hl : lim ≤ (y.length : Int) := by
    rw [← hlim]
    split_ifs <;> omega
  rw [hs lim hl]
  have hneg : ¬ ((y.length : Int) < 0) := by omega
  simp only [hneg, if_false, Int.toNat_ofNat, List.drop_left]
  have e : ¬ (y.length + 3 = 0) := by omega
  simp only [e, if_false]
  by_cases h2 : (DecodeRune [a, b, c]).2 = 3
  · simp [h2]
  · have : ¬ (y.length + (DecodeRune [a, b, c]).2 = y.length + 3) := by omega
    simp [h2, this]

/-- Every string that ends with an entry of the table has a white space rune as
its last rune. -/
theorem DecodeLastRune_of_space (y c : List Nat) (hc : c ∈ spaceEncodings) :
    IsSpace (DecodeLastRune (y ++ c)).1 = true ∧ (DecodeLastRune (y ++ c)).2 = c.length := by
  simp only [spaceEncodings, List.mem_cons, List.mem_singleton, List.not_mem_nil,
    or_false] at hc
  rcases hc with rfl | rfl | rfl | rfl | rfl | rfl | rfl | rfl | rfl | rfl | rfl | rfl | rfl | rfl | rfl | rfl | rfl | rfl | rfl | rfl | rfl | rfl | rfl | rfl | rfl
  · rw [DecodeLastRune_one y _ (by decide)]; exact ⟨rfl, rfl⟩
  · rw [DecodeLastRune_one y _ (by decide)]; exact ⟨rfl, rfl⟩
  · rw [DecodeLastRune_one y _ (by decide)]; exact ⟨rfl, rfl⟩
  · rw [DecodeLastRune_one y _ (by decide)]; exact ⟨rfl, rfl⟩
  · rw [DecodeLastRune_one y _ (by decide)]; exact ⟨rfl, rfl⟩
  · rw [DecodeLastRune_one y _ (by decide)]; exact ⟨rfl, rfl⟩
  · rw [DecodeLastRune_two y _ _ (by decide) (by decide)]; exact ⟨rfl, rfl⟩
  · rw [DecodeLastRune_two y _ _ (by decide) (by decide)]; exact ⟨rfl, rfl⟩
  · rw [DecodeLastRune_three y _ _ _ (by decide) (by decide) (by decide)]; exact ⟨rfl, rfl⟩
  · rw [DecodeLastRune_three y _ _ _ (by decide) (by decide) (by decide)]; exact ⟨rfl, rfl⟩
  · rw [DecodeLastRune_three y _ _ _ (by decide) (by decide) (by decide)]; exact ⟨rfl, rfl⟩
  · rw [DecodeLastRune_three y _ _ _ (by decide) (by decide) (by decide)]; exact ⟨rfl, rfl⟩
  · rw [DecodeLastRune_three y _ _ _ (by decide) (by decide) (by decide)]; exact ⟨rfl, rfl⟩
  · rw [DecodeLastRune_three y _ _ _ (by decide) (by decide) (by decide)]; exact ⟨rfl, rfl⟩
  · rw [DecodeLastRune_three y _ _ _ (by decide) (by decide) (by decide)]; exact ⟨rfl, rfl⟩
  · rw [DecodeLastRune_three y _ _ _ (by decide) (by decide) (by decide)]; exact ⟨rfl, rfl⟩
  · rw [DecodeLastRune_three y _ _ _ (by decide) (by decide) (by decide)]; exact ⟨rfl, rfl⟩
  · rw [DecodeLastRune_three y _ _ _ (by decide) (by decide) (by decide)]; exact ⟨rfl, rfl⟩
  · rw [DecodeLastRune_three y _ _ _ (by decide) (by decide) (by decide)]; exact ⟨rfl, rfl⟩
  · rw [DecodeLastRune_three y _ _ _ (by decide) (by decide) (by decide)]; exact ⟨rfl, rfl⟩
  · rw [DecodeLastRune_three y _ _ _ (by decide) (by decide) (by decide)]; exact ⟨rfl, rfl⟩
  · rw [DecodeLastRune_three y _ _ _ (by decide) (by decide) (by decide)]; exact ⟨rfl, rfl⟩
  · rw [DecodeLastRune_three y _ _ _ (by decide) (by decide) (by decide)]; exact ⟨rfl, rfl⟩
  · rw [DecodeLastRune_three y _ _ _ (by decide) (by decide) (by decide)]; exact ⟨rfl, rfl⟩
  · rw [DecodeLastRune_three y _ _ _ (by decide) (by decide) (by decide)]; exact ⟨rfl, rfl⟩

theorem SpaceRun.append {a b : List Byte} (ha : SpaceRun a) (hb : SpaceRun b) :
    SpaceRun (a ++ b) := by
  induction ha with
  | nil => simpa using hb
  | cons c w hc _ ih =>
    rw [List.append_assoc]
    exact SpaceRun.cons c (w ++ b) hc ih

theorem SpaceRun.single {c : List Byte} (hc : c ∈ spaceEncodings) : SpaceRun c := by
  have := SpaceRun.cons c [] hc SpaceRun.nil
  simpa using this

theorem nil_not_space : ([] : List Byte) ∉ spaceEncodings := by decide

/-- The left trim removes a run of white space and leaves a string that does not
begin with white space. -/
theorem TrimLeftSpace_spec (n : Nat) (s : List Byte) (hn : s.length ≤ n) :
    ∃ pre, s = pre ++ TrimLeftSpace n s ∧ SpaceRun pre ∧
      ∀ c ∈ spaceEncodings, ¬ c <+: TrimLeftSpace n s := by
  induction n generalizing s with
  | zero =>
    have : s = [] := List.length_eq_zero.mp (by omega)
    subst this
    refine ⟨[], rfl, SpaceRun.nil, ?_⟩
    intro c hc hp
    have : c = [] := List.prefix_nil.mp hp
    exact nil_not_space (this ▸ hc)
  | succ n ih =>
    cases s with
    | nil =>
      refine ⟨[], rfl, SpaceRun.nil, ?_⟩
      intro c hc hp
      have : c = [] := List.prefix_nil.mp hp
      exact nil_not_space (this ▸ hc)
    | cons a t =>
      by_cases hsp : IsSpace (DecodeRune (a :: t)).1 = true
      · have hd := DecodeRune_space (a :: t) hsp
        have hw := DecodeRune_width_pos (a :: t) (by simp)
        have e : TrimLeftSpace (n + 1) (a :: t)
            = TrimLeftSpace n ((a :: t).drop (DecodeRune (a :: t)).2) := by
          simp [TrimLeftSpace, hsp]
        have hlen : ((a :: t).drop (DecodeRune (a :: t)).2).length ≤ n := by
          simp only [List.length_drop, List.length_cons] at hn ⊢
          omega
        obtain ⟨pre, h1, h2, h3⟩ := ih _ hlen
        refine ⟨(a :: t).take (DecodeRune (a :: t)).2 ++ pre, ?_, ?_, ?_⟩
        · rw [e, List.append_assoc, ← h1, List.take_append_drop]
        · exact SpaceRun.cons _ _ hd.1 h2
        · rw [e]; exact h3
      · have e : TrimLeftSpace (n + 1) (a :: t) = a :: t := by
          simp [TrimLeftSpace, hsp]
        refine ⟨[], by rw [e]; rfl, SpaceRun.nil, ?_⟩
        rw [e]
        intro c hc hp
        obtain ⟨x, hx⟩ := hp
        apply hsp
        rw [← hx]
        exact (DecodeRune_of_space c x hc).1

/-- The right trim removes a run of white space and leaves a string that does not
end with white space. -/
theorem TrimRightSpace_spec (n : Nat) (s : List Byte) (hn : s.length ≤ n) :
    ∃ post, s = TrimRightSpace n s ++ post ∧ SpaceRun post ∧
      ∀ c ∈ spaceEncodings, ¬ c <:+ TrimRightSpace n s := by
  induction n generalizing s with
  | zero =>
    have : s = [] := List.length_eq_zero.mp (by omega)
    subst this
    refine ⟨[], rfl, SpaceRun.nil, ?_⟩
    intro c hc hp
    have : c = [] := List.suffix_nil.mp hp
    exact nil_not_space (this ▸ hc)
  | succ n ih =>
    cases s with
    | nil =>
      refine ⟨[], rfl, SpaceRun.nil, ?_⟩
      intro c hc hp
      have : c = [] := List.suffix_nil.mp hp
      exact nil_not_space (this ▸ hc)
    | cons a t =>
      by_cases hsp : IsSpace (DecodeLastRune (a :: t)).1 = true
      · have hd := DecodeLastRune_space (a :: t) hsp
        have hw := DecodeLastRune_width_pos (a :: t) (by simp)
        have e : TrimRightSpace (n + 1) (a :: t)
            = TrimRightSpace n ((a :: t).take ((a :: t).length - (DecodeLastRune (a :: t)).2)) := by
          simp [TrimRightSpace, hsp]
        have hlen : ((a :: t).take ((a :: t).length - (DecodeLastRune (a :: t)).2)).length ≤ n := by
          simp only [List.length_take, List.length_cons] at hn ⊢
          omega
        obtain ⟨post, h1, h2, h3⟩ := ih _ hlen
        refine ⟨post ++ (a :: t).drop ((a :: t).length - (DecodeLastRune (a :: t)).2), ?_, ?_, ?_⟩
        · rw [e, ← List.append_assoc, ← h1, List.take_append_drop]
        · exact SpaceRun.append h2 (SpaceRun.single hd.1)
        · rw [e]; exact h3
      · have e : TrimRightSpace (n + 1) (a :: t) = a :: t := by
          simp [TrimRightSpace, hsp]
        refine ⟨[], by rw [e]; simp, SpaceRun.nil, ?_⟩
        rw [e]
        intro c hc hp
        obtain ⟨y, hy⟩ := hp
        apply hsp
        rw [← hy]
        exact (DecodeLastRune_of_space y c hc).1

/-- The result of `TrimSpace` is its argument with surrounding white space trimmed. -/
theorem TrimSpace_spec (s : List Byte) : Trimmed s (TrimSpace s) := by
  obtain ⟨pre, h1, h2, h3⟩ := TrimLeftSpace_spec s.length s (le_refl _)
  obtain ⟨post, k1, k2, k3⟩ :=
    TrimRightSpace_spec (TrimLeftSpace s.length s).length (TrimLeftSpace s.length s) (le_refl _)
  refine ⟨pre, post, ?_, h2, k2, ?_, ?_⟩
  · show s = pre ++ TrimRightSpace _ (TrimLeftSpace s.length s) ++ post
    rw [List.append_assoc, ← k1, ← h1]
  · intro c hc hp
    apply h3 c hc
    rw [k1]
    exact hp.trans (List.prefix_append _ _)
  · exact k3

/-! ## The trimmed string is unique -/

/-- Every entry of the table is a byte that is not a continuation byte followed
by continuation bytes only. -/
theorem table_shape (c : List Nat) (hc : c ∈ spaceEncodings) :
    ∃ h tl, c = h :: tl ∧ isCont h = false ∧ ∀ b ∈ tl, isCont b = true := by
  simp only [spaceEncodings, List.mem_cons, List.mem_singleton, List.not_mem_nil,
    or_false] at hc
  rcases hc with rfl | rfl | rfl | rfl | rfl | rfl | rfl | rfl | rfl | rfl | rfl | rfl | rfl | rfl | rfl | rfl | rfl | rfl | rfl | rfl | rfl | rfl | rfl | rfl | rfl <;>
    exact ⟨_, _, rfl, by decide, by decide⟩

theorem SpaceRun.head_not_cont {q : List Byte} (hq : SpaceRun q) (h : Nat) (tl : List Nat)
    (e : q = h :: tl) : isCont h = false := by
  induction hq with
  | nil => simp at e
  | cons c w hc _ _ =>
    obtain ⟨h2, tl2, rfl, hh, _⟩ := table_shape c hc
    simp only [List.cons_append, List.cons.injEq] at e
    rw [← e.1]
    exact hh

/-- No entry of the table begins inside a string that does not begin with white
space and ends inside the run of white space that follows it. -/
theorem no_straddle (c t q : List Nat) (hc : c ∈ spaceEncodings) (hp : c <+: t ++ q)
    (hnp : ¬ c <+: t) (ht : t ≠ []) (hq : SpaceRun q) : False := by
  have htp : t <+: t ++ q := List.prefix_append t q
  have hlt : t.length < c.length := by
    by_contra hle
    exact hnp (List.prefix_of_prefix_length_le hp htp (by omega))
  obtain ⟨z, hz⟩ := List.prefix_of_prefix_length_le htp hp (by omega)
  have hzne : z ≠ [] := by
    intro h0
    rw [h0, List.append_nil] at hz
    rw [hz] at hlt
    omega
  rw [← hz] at hp
  have hzq : z <+: q := (List.prefix_append_right_inj t).mp hp
  obtain ⟨h, tl, hc', _, htl⟩ := table_shape c hc
  obtain ⟨a, t1, rfl⟩ := List.exists_cons_of_ne_nil ht
  obtain ⟨b, z1, rfl⟩ := List.exists_cons_of_ne_nil hzne
  rw [hc'] at hz
  simp only [List.cons_append, List.cons.injEq] at hz
  have hb : isCont b = true := htl b (by rw [← hz.2]; simp)
  obtain ⟨x, hx⟩ := hzq
  have := hq.head_not_cont b (z1 ++ x) (by rw [← hx]; rfl)
  rw [hb] at this
  exact absurd this (by simp)

/-- The left trim removes a leading run of white space. -/
theorem TrimLeftSpace_strip (p r : List Byte) (hp : SpaceRun p) (n : Nat)
    (hn : (p ++ r).length ≤ n) :
    TrimLeftSpace n (p ++ r) = TrimLeftSpace r.length r := by
  induction hp generalizing n with
  | nil => exact TrimLeftSpace_bound _ _ _ hn (le_refl _)
  | cons c w hc _ ih =>
    obtain ⟨h, tl, rfl, _, _⟩ := table_shape c hc
    obtain ⟨hsp, hw⟩ := DecodeRune_of_space (h :: tl) (w ++ r) hc
    cases n with
    | zero => simp at hn
    | succ n =>
      rw [List.append_assoc]
      have e : TrimLeftSpace (n + 1) (h :: tl ++ (w ++ r))
          = TrimLeftSpace n ((h :: tl ++ (w ++ r)).drop
              (DecodeRune (h :: tl ++ (w ++ r))).2) := by
        simp only [List.cons_append, TrimLeftSpace] at hsp ⊢
        rw [if_pos hsp]
      rw [e, hw, List.drop_left]
      apply ih
      simp only [List.length_append, List.length_cons] at hn ⊢
      omega

/-- The left trim keeps a string that does not begin with white space. -/
theorem TrimLeftSpace_keep (t q : List Byte) (ht : t ≠ [])
    (hlead : ∀ c ∈ spaceEncodings, ¬ c <+: t) (hq : SpaceRun q) (n : Nat) :
    TrimLeftSpace n (t ++ q) = t ++ q := by
  cases n with
  | zero => rfl
  | succ n =>
    obtain ⟨a, t1, rfl⟩ := List.exists_cons_of_ne_nil ht
    have hns : ¬ (IsSpace (DecodeRune (a :: t1 ++ q)).1 = true) := by
      intro hsp
      have hd := DecodeRune_space (a :: t1 ++ q) hsp
      have hpre : (a :: t1 ++ q).take (DecodeRune (a :: t1 ++ q)).2 <+: a :: t1 ++ q :=
        List.take_prefix _ _
      exact no_straddle _ (a :: t1) q hd.1 hpre (hlead _ hd.1) ht hq
    simp only [List.cons_append, TrimLeftSpace] at hns ⊢
    rw [if_neg hns]

theorem SpaceRun.snoc {q : List Byte} (hq : SpaceRun q) (hne : q ≠ []) :
    ∃ q' c, q = q' ++ c ∧ SpaceRun q' ∧ c ∈ spaceEncodings := by
  induction hq with
  | nil => exact absurd rfl hne
  | cons c w hc hw ih =>
    by_cases hw0 : w = []
    · subst hw0
      exact ⟨[], c, by simp, SpaceRun.nil, hc⟩
    · obtain ⟨q', c', e, h1, h2⟩ := ih hw0
      exact ⟨c ++ q', c', by rw [e, List.append_assoc], SpaceRun.cons c q' hc h1, h2⟩

/-- The right trim removes a trailing run of white space. -/
theorem TrimRightSpace_strip (y q : List Byte) (hq : SpaceRun q) (n : Nat)
    (hn : (y ++ q).length ≤ n) :
    TrimRightSpace n (y ++ q) = TrimRightSpace y.length y := by
  induction n generalizing q with
  | zero =>
    have h0 : y ++ q = [] := List.length_eq_zero.mp (by omega)
    have hy : y = [] := (List.append_eq_nil.mp h0).1
    have hq0 : q = [] := (List.append_eq_nil.mp h0).2
    subst hy hq0
    rfl
  | succ n ih =>
    by_cases hq0 : q = []
    · subst hq0
      rw [List.append_nil] at hn ⊢
      exact TrimRightSpace_bound _ _ _ hn (le_refl _)
    · obtain ⟨q', c, rfl, hq', hc⟩ := hq.snoc hq0
      obtain ⟨h, tl, rfl, _, _⟩ := table_shape c hc
      obtain ⟨hsp, hw⟩ := DecodeLastRune_of_space (y ++ q') (h :: tl) hc
      rw [← List.append_assoc] at hn ⊢
      have hne : y ++ q' ++ h :: tl ≠ [] := by simp
      obtain ⟨a, rest, hs⟩ := List.exists_cons_of_ne_nil hne
      have e : TrimRightSpace (n + 1) (y ++ q' ++ h :: tl)
          = TrimRightSpace n ((y ++ q' ++ h :: tl).take
              ((y ++ q' ++ h :: tl).length - (DecodeLastRune (y ++ q' ++ h :: tl)).2)) := by
        rw [hs] at hsp ⊢
        simp only [TrimRightSpace]
        rw [if_pos hsp]
      have e2 : (y ++ q' ++ h :: tl).length - (h :: tl).length = (y ++ q').length := by
        simp only [List.length_append, List.length_cons]
        omega
      rw [e, hw, e2, List.take_left]
      apply ih q' hq'
      simp only [List.length_append, List.length_cons] at hn ⊢
      omega

/-- The right trim keeps a string that does not end with white space. -/
theorem TrimRightSpace_keep (t : List Byte) (htrail : ∀ c ∈ spaceEncodings, ¬ c <:+ t)
    (n : Nat) : TrimRightSpace n t = t := by
  cases n with
  | zero => rfl
  | succ n =>
    cases t with
    | nil => rfl
    | cons a t1 =>
      have hns : ¬ (IsSpace (DecodeLastRune (a :: t1)).1 = true) := by
        intro hsp
        have hd := DecodeLastRune_space (a :: t1) hsp
        exact htrail _ hd.1 (List.drop_suffix _ _)
      simp only [TrimRightSpace]
      rw [if_neg hns]

/-- A string has one trimmed form only, and `TrimSpace` computes it. -/
theorem TrimSpace_of_Trimmed (s t : List Byte) (h : Trimmed s t) : TrimSpace s = t := by
  obtain ⟨p, q, rfl, hp, hq, hlead, htrail⟩ := h
  unfold TrimSpace
  dsimp only
  rw [List.append_assoc, TrimLeftSpace_strip p (t ++ q) hp _ (le_refl _)]
  by_cases ht : t = []
  · subst ht
    have e1 : TrimLeftSpace ([] ++ q).length ([] ++ q) = [] := by
      have := TrimLeftSpace_strip q [] hq q.length (by simp)
      simpa [TrimLeftSpace] using this
    rw [e1]
    rfl
  · rw [TrimLeftSpace_keep t q ht hlead hq, TrimRightSpace_strip t q hq _ (le_refl _),
      TrimRightSpace_keep t htrail]

/-! ## Facts about the scanning loop and the guarded reads -/

theorem scanWhile_append (p : Byte → Bool) (xs ys : List Byte) (i : Nat)
    (h : ∀ b ∈ xs, p b = true) :
    scanWhile p (xs ++ ys) i = scanWhile p ys (i + xs.length) := by
  induction xs generalizing i with
  | nil => simp
  | cons c cs ih =>
    have hc : p c = true := h c (by simp)
    have hcs : ∀ b ∈ cs, p b = true := fun b hb => h b (by simp [hb])
    have e : i + 1 + cs.length = i + (cs.length + 1) := by omega
    show (if p c = true then scanWhile p (cs ++ ys) (i + 1) else i) = _
    rw [if_pos hc, ih (i + 1) hcs, List.length_cons, e]

theorem scanWhile_stop (p : Byte → Bool) (c : Byte) (ys : List Byte) (i : Nat)
    (h : p c = false) : scanWhile p (c :: ys) i = i := by
  simp [scanWhile, h]

theorem scanWhile_nil (p : Byte → Bool) (i : Nat) : scanWhile p [] i = i := rfl

theorem scanWhile_eq (p : Byte → Bool) (xs : List Byte) (i : Nat) :
    scanWhile p xs i = i + (xs.takeWhile p).length := by
  induction xs generalizing i with
  | nil => simp [scanWhile]
  | cons c cs ih =>
    by_cases hc : p c = true
    · simp only [scanWhile, hc, if_true, ih, List.takeWhile_cons_of_pos, List.length_cons]
      omega
    · simp [scanWhile, hc]

theorem drop_scanWhile (p : Byte → Bool) (input : List Byte) (i : Nat) :
    input.drop (scanWhile p (input.drop i) i) = (input.drop i).dropWhile p := by
  rw [scanWhile_eq, ← List.drop_drop]
  generalize input.drop i = xs
  induction xs with
  | nil => simp
  | cons c cs ih =>
    by_cases hc : p c = true
    · simp [hc, ih]
    · simp [hc]

theorem index_of_drop (input : List Byte) (i : Nat) (c : Byte) (r : List Byte)
    (h : input.drop i = c :: r) : index input i = some c := by
  have := List.head?_drop input i
  rw [h] at this
  simpa [index] using this.symm

theorem lt_length_of_drop (input : List Byte) (i : Nat) (c : Byte) (r : List Byte)
    (h : input.drop i = c :: r) : i < input.length := by
  by_contra hlt
  have : input.drop i = [] := List.drop_eq_nil_of_le (by omega)
  simp [this] at h

theorem drop_succ_of_drop (input : List Byte) (i : Nat) (c : Byte) (r : List Byte)
    (h : input.drop i = c :: r) : input.drop (i + 1) = r := by
  have : input.drop (i + 1) = (input.drop i).drop 1 := by
    rw [List.drop_drop]
  rw [this, h]; rfl

theorem skipCR_of_drop (input : List Byte) (i : Nat) (c : Byte) (r : List Byte)
    (h : input.drop i = c :: r) :
    skipCR input i = some (if c = 13 ∧ r.head? = some 10 then i + 1 else i) := by
  have h1 := index_of_drop input i c r h
  have h2 := drop_succ_of_drop input i c r h
  have h3 := lt_length_of_drop input i c r h
  cases r with
  | nil =>
    have : ¬ (i + 1 < input.length) := by
      intro hlt
      have hd := List.drop_eq_nil_iff.mp h2
      omega
    simp [skipCR, h1, this]
  | cons d r' =>
    have h4 := index_of_drop input (i + 1) d r' h2
    have h5 := lt_length_of_drop input (i + 1) d r' h2
    by_cases hc : c = 13 <;> by_cases hd : d = 10 <;> simp [skipCR, h1, h4, h5, hc, hd]

theorem notEqAt_eq (input : List Byte) (i : Nat) :
    notEqAt input i = some (!(headIs isEq (input.drop i))) := by
  cases h : input.drop i with
  | nil =>
    have := List.drop_eq_nil_iff.mp h
    simp [notEqAt, headIs, this]
  | cons c r =>
    have h1 := index_of_drop input i c r h
    have h3 := lt_length_of_drop input i c r h
    simp [notEqAt, headIs, h1, h3, isEq, bne]

theorem notNewlineAt_eq (input : List Byte) (i : Nat) :
    notNewlineAt input i = some (!(headIs isNewline (input.drop i))) := by
  cases h : input.drop i with
  | nil =>
    have := List.drop_eq_nil_iff.mp h
    simp [notNewlineAt, headIs, this]
  | cons c r =>
    have h1 := index_of_drop input i c r h
    have h3 := lt_length_of_drop input i c r h
    have h4 : ¬ input.length ≤ i := by omega
    by_cases hc : c = 10 <;> simp [notNewlineAt, headIs, h1, h4, isNewline, bne, hc]

theorem hasHashLead_eq (L : List Byte) : hasHashLead L = some (hashLead L) := by
  match L with
  | [] => simp [hasHashLead, hashLead]
  | [_] => simp [hasHashLead, hashLead]
  | [_, _] => simp [hasHashLead, hashLead]
  | a :: b :: _ :: _ =>
    by_cases ha : a = 35 <;> simp [hasHashLead, hashLead, index, ha]

theorem slice_mid (a L r : List Byte) :
    slice (a ++ L ++ r) a.length (a.length + L.length) = some L := by
  simp [slice, List.append_assoc]

theorem slice_from (L : List Byte) (k : Nat) (h : k ≤ L.length) :
    slice L k L.length = some (L.drop k) := by
  simp [slice, h]

theorem isNewline_false_of_notNewline (c : Byte) (h : notNewline c = true) :
    isNewline c = false := by
  simp only [notNewline, isNewline, Bool.and_eq_true, bne_iff_ne, ne_eq] at *
  simp [h.1, h.2]

theorem notNewline_false_of_isNewline (c : Byte) (h : isNewline c = true) :
    notNewline c = false := by
  simp only [notNewline, isNewline, Bool.or_eq_true, beq_iff_eq] at *
  rcases h with h | h <;> simp [h]

/-- The input is only line-break bytes: `getTitle` returns the default title. -/
theorem getTitle_blank (blanks : List Byte) (hb : ∀ b ∈ blanks, isNewline b = true) :
    getTitle blanks = some defaultTitle := by
  have h1 : scanWhile isNewline blanks 0 = blanks.length := by
    have := scanWhile_append isNewline blanks [] 0 hb
    simpa [scanWhile_nil] using this
  simp [getTitle, h1]

/-- The first non-blank line `L` is ended by the line-break byte `t`: `getTitle`
returns, and its value is `titleOf` of the line and of what follows the break. -/
theorem getTitle_firstLine (blanks L rest : List Byte) (t : Byte)
    (hb : ∀ b ∈ blanks, isNewline b = true) (hL : L ≠ [])
    (hLn : ∀ b ∈ L, notNewline b = true) (ht : isNewline t = true) :
    getTitle (blanks ++ L ++ t :: rest) = some (titleOf L (afterBreak t rest)) := by
  obtain ⟨c, L', rfl⟩ := List.exists_cons_of_ne_nil hL
  have hc : notNewline c = true := hLn c (by simp)
  have hc13 : c ≠ 13 := by
    simp only [notNewline, Bool.and_eq_true, bne_iff_ne, ne_eq] at hc
    exact hc.2
  generalize hin : blanks ++ c :: L' ++ t :: rest = input
  have e1 : input = blanks ++ (c :: (L' ++ t :: rest)) := by simp [← hin]
  have e2 : input = (blanks ++ c :: L') ++ (t :: rest) := by simp [← hin]
  have h1 : scanWhile isNewline input 0 = blanks.length := by
    rw [e1, scanWhile_append isNewline blanks _ 0 hb,
      scanWhile_stop _ _ _ _ (isNewline_false_of_notNewline c hc)]
    simp
  have h3 : input.drop blanks.length = c :: (L' ++ t :: rest) := by
    rw [e1]; simp
  have h2 : ¬ (blanks.length ≥ input.length) := by
    have := lt_length_of_drop input _ _ _ h3
    omega
  have h4 : skipCR input blanks.length = some blanks.length := by
    rw [skipCR_of_drop input _ _ _ h3]
    simp [hc13]
  have h5 : scanWhile notNewline (input.drop blanks.length) blanks.length
      = blanks.length + (c :: L').length := by
    rw [h3]
    have : c :: (L' ++ t :: rest) = (c :: L') ++ (t :: rest) := by simp
    rw [this, scanWhile_append notNewline (c :: L') _ _ hLn,
      scanWhile_stop _ _ _ _ (notNewline_false_of_isNewline t ht)]
  have h6 : slice input blanks.length (blanks.length + (c :: L').length) = some (c :: L') := by
    rw [← hin]; exact slice_mid blanks (c :: L') (t :: rest)
  have h7 : input.drop (blanks.length + (c :: L').length) = t :: rest := by
    rw [e2]
    have : blanks.length + (c :: L').length = (blanks ++ c :: L').length := by simp
    rw [this]; simp
  have h8 := skipCR_of_drop input _ _ _ h7
  have h9 : input.drop ((if t = 13 ∧ rest.head? = some 10
      then blanks.length + (c :: L').length + 1 else blanks.length + (c :: L').length) + 1)
      = afterBreak t rest := by
    have h10 := drop_succ_of_drop input _ _ _ h7
    by_cases hcr : t = 13 ∧ rest.head? = some 10
    · rw [if_pos hcr]
      cases rest with
      | nil => simp at hcr
      | cons d r =>
        rw [drop_succ_of_drop input _ d r h10]
        simp [afterBreak, hcr]
    · rw [if_neg hcr, h10]
      simp [afterBreak, hcr]
  generalize hj : (if t = 13 ∧ rest.head? = some 10
      then blanks.length + (c :: L').length + 1 else blanks.length + (c :: L').length) = j
      at h8 h9
  generalize afterBreak t rest = next at h9 ⊢
  have h11 := notEqAt_eq input (j + 1)
  rw [h9] at h11
  have h12 : input.drop (scanWhile isBlank (input.drop (scanWhile isEq (input.drop (j + 1)) (j + 1)))
      (scanWhile isEq (input.drop (j + 1)) (j + 1)))
      = (next.dropWhile isEq).dropWhile isBlank := by
    rw [drop_scanWhile, drop_scanWhile, h9]
  have h13 := notNewlineAt_eq input (scanWhile isBlank
      (input.drop (scanWhile isEq (input.drop (j + 1)) (j + 1)))
      (scanWhile isEq (input.drop (j + 1)) (j + 1)))
  rw [h12] at h13
  have h14 := hasHashLead_eq (c :: L')
  unfold getTitle
  simp only [h1, h2, if_false, h4, Option.bind_eq_bind, Option.some_bind, h5, h6, h8, h14]
  by_cases hh : hashLead (c :: L') = true
  · have hlen : 2 ≤ (c :: L').length := by
      simp only [hashLead, Bool.and_eq_true, decide_eq_true_eq] at hh
      omega
    simp only [hh, if_true, slice_from _ 2 hlen, Option.some_bind, titleOf]
    rfl
  · simp only [hh, h11, h13, titleOf, underlined, Option.some_bind, Bool.false_eq_true, if_false]
    by_cases ha : headIs isEq next = true <;>
      by_cases hn : headIs isNewline ((next.dropWhile isEq).dropWhile isBlank) = true <;>
      simp [ha, hn]

/-- The first non-blank line `L` runs to the end of the input: the unguarded read
`input[i]` after the line loop is out of range and `getTitle` panics. -/
theorem getTitle_unterminated (blanks L : List Byte)
    (hb : ∀ b ∈ blanks, isNewline b = true) (hL : L ≠ [])
    (hLn : ∀ b ∈ L, notNewline b = true) :
    getTitle (blanks ++ L) = none := by
  obtain ⟨c, L', rfl⟩ := List.exists_cons_of_ne_nil hL
  have hc : notNewline c = true := hLn c (by simp)
  have hc13 : c ≠ 13 := by
    simp only [notNewline, Bool.and_eq_true, bne_iff_ne, ne_eq] at hc
    exact hc.2
  generalize hin : blanks ++ c :: L' = input
  have h1 : scanWhile isNewline input 0 = blanks.length := by
    rw [← hin, scanWhile_append isNewline blanks _ 0 hb,
      scanWhile_stop _ _ _ _ (isNewline_false_of_notNewline c hc)]
    simp
  have h3 : input.drop blanks.length = c :: L' := by
    rw [← hin]; simp
  have h2 : ¬ (blanks.length ≥ input.length) := by
    have := lt_length_of_drop input _ _ _ h3
    omega
  have h4 : skipCR input blanks.length = some blanks.length := by
    rw [skipCR_of_drop input _ _ _ h3]
    simp [hc13]
  have h5 : scanWhile notNewline (input.drop blanks.length) blanks.length
      = blanks.length + (c :: L').length := by
    rw [h3]
    have := scanWhile_append notNewline (c :: L') [] blanks.length hLn
    simpa [scanWhile_nil] using this
  have h6 : slice input blanks.length (blanks.length + (c :: L').length) = some (c :: L') := by
    have := slice_mid blanks (c :: L') []
    simpa [hin] using this
  have h7 : skipCR input (blanks.length + (c :: L').length) = none := by
    have hlen : input.length = blanks.length + (c :: L').length := by rw [← hin]; simp
    have hnone : index input (blanks.length + (c :: L').length) = none := by
      unfold index
      exact List.getElem?_eq_none (by omega)
    simp only [skipCR, hnone, Option.bind_eq_bind, Option.none_bind]
  unfold getTitle
  simp only [h1, h2, if_false, h4, Option.bind_eq_bind, Option.some_bind, h5, h6, h7,
    Option.none_bind]

theorem Blank.isNewline {bs : List Byte} (h : Blank bs) : ∀ b ∈ bs, isNewline b = true := by
  intro b hb
  rcases h b hb with h | h <;> simp [Mkdown.isNewline, h]

theorem LineBody.notNewline {L : List Byte} (h : LineBody L) :
    ∀ b ∈ L, notNewline b = true := by
  intro b hb
  have := h.2 b hb
  simp [Mkdown.notNewline, this.1, this.2]

theorem hashLead_false_of_not_HashStart (L : List Byte) (h : ¬ HashStart L) :
    hashLead L = false := by
  by_contra hh
  apply h
  simp only [Bool.not_eq_false, hashLead, Bool.and_eq_true, Bool.or_eq_true, beq_iff_eq,
    decide_eq_true_eq] at hh
  exact ⟨hh.1.2, hh.2⟩

theorem hashLead_of_HashStart (L : List Byte) (h : HashStart L) (h3 : 3 ≤ L.length) :
    hashLead L = true := by
  simp only [hashLead, Bool.and_eq_true, Bool.or_eq_true, beq_iff_eq, decide_eq_true_eq]
  exact ⟨⟨h3, h.1⟩, h.2⟩

theorem dropWhile_append_all (p : Byte → Bool) (xs ys : List Byte)
    (h : ∀ b ∈ xs, p b = true) : (xs ++ ys).dropWhile p = ys.dropWhile p := by
  induction xs with
  | nil => rfl
  | cons c cs ih =>
    have hc : p c = true := h c (by simp)
    have hcs : ∀ b ∈ cs, p b = true := fun b hb => h b (by simp [hb])
    simp [List.dropWhile_cons, hc, ih hcs]

theorem dropWhile_stop (p : Byte → Bool) (c : Byte) (ys : List Byte) (h : p c = false) :
    (c :: ys).dropWhile p = c :: ys := by
  simp [List.dropWhile_cons, h]

theorem underlined_of_Underline (next : List Byte) (h : Underline next) :
    underlined next = true := by
  obtain ⟨eqs, ws, u, tail, hne, heq, hws, hu, rfl⟩ := h
  have heq' : ∀ b ∈ eqs, isEq b = true := fun b hb => by simp [isEq, heq b hb]
  have hws' : ∀ b ∈ ws, isBlank b = true := fun b hb => by
    rcases hws b hb with h | h <;> simp [isBlank, h]
  have hu1 : isEq u = false := by rcases hu with h | h <;> simp [isEq, h]
  have hu2 : isBlank u = false := by rcases hu with h | h <;> simp [isBlank, h]
  have hu3 : isNewline u = true := by rcases hu with h | h <;> simp [isNewline, h]
  have hd1 : (ws ++ u :: tail).dropWhile isEq = ws ++ u :: tail := by
    cases ws with
    | nil => exact dropWhile_stop _ _ _ hu1
    | cons w ws' =>
      have : isEq w = false := by
        rcases hws w (by simp) with h | h <;> simp [isEq, h]
      exact dropWhile_stop _ _ _ this
  obtain ⟨e, eqs', rfl⟩ := List.exists_cons_of_ne_nil hne
  have he : isEq e = true := heq' e (by simp)
  have hd : ((e :: eqs') ++ ws ++ u :: tail).dropWhile isEq = ws ++ u :: tail := by
    rw [List.append_assoc, dropWhile_append_all _ _ _ heq', hd1]
  have hd2 : (ws ++ u :: tail).dropWhile isBlank = u :: tail := by
    rw [dropWhile_append_all _ _ _ hws', dropWhile_stop _ _ _ hu2]
  unfold underlined
  rw [hd, hd2]
  simp [headIs, he, hu3]

theorem Underline_of_underlined (next : List Byte) (h : underlined next = true) :
    Underline next := by
  simp only [underlined, Bool.and_eq_true] at h
  obtain ⟨h1, h2⟩ := h
  have e1 := List.takeWhile_append_dropWhile isEq next
  have e2 := List.takeWhile_append_dropWhile isBlank (next.dropWhile isEq)
  cases hr : (next.dropWhile isEq).dropWhile isBlank with
  | nil => simp [hr, headIs] at h2
  | cons u tail =>
    rw [hr] at h2 e2
    refine ⟨next.takeWhile isEq, (next.dropWhile isEq).takeWhile isBlank, u, tail, ?_, ?_, ?_, ?_, ?_⟩
    · cases next with
      | nil => simp [headIs] at h1
      | cons c r =>
        have : isEq c = true := h1
        simp [List.takeWhile_cons, this]
    · intro b hb
      have := List.mem_takeWhile_imp hb
      simpa [isEq] using this
    · intro b hb
      have := List.mem_takeWhile_imp hb
      simpa [isBlank] using this
    · simpa [headIs, isNewline] using h2
    · rw [List.append_assoc, e2, e1]

/-- The first non-blank line `L` is ended by the line break `term`, and `next`
is what follows: `getTitle` returns `titleOf L next`. -/
theorem getTitle_line (blanks L term next : List Byte)
    (hb : Blank blanks) (hL : LineBody L) (ht : LineBreak term next) :
    getTitle (blanks ++ L ++ term ++ next) = some (titleOf L next) := by
  have hb' := hb.isNewline
  have hL' := hL.notNewline
  rcases ht with rfl | rfl | ⟨rfl, hn⟩
  · have := getTitle_firstLine blanks L next 10 hb' hL.1 hL' (by decide)
    simpa [afterBreak] using this
  · have := getTitle_firstLine blanks L (10 :: next) 13 hb' hL.1 hL' (by decide)
    simpa [afterBreak] using this
  · have := getTitle_firstLine blanks L next 13 hb' hL.1 hL' (by decide)
    simpa [afterBreak, hn] using this

theorem not_Underline_of_run (eqs ws : List Byte)
    (heq : ∀ b ∈ eqs, b = 61) (hws : ∀ b ∈ ws, b = 32 ∨ b = 9) :
    ¬ Underline (eqs ++ ws) := by
  intro h
  have hu := underlined_of_Underline _ h
  have heq' : ∀ b ∈ eqs, isEq b = true := fun b hb => by simp [isEq, heq b hb]
  have hws' : ∀ b ∈ ws, isBlank b = true := fun b hb => by
    rcases hws b hb with h | h <;> simp [isBlank, h]
  have hd1 : ws.dropWhile isEq = ws := by
    cases ws with
    | nil => rfl
    | cons w ws' =>
      have : isEq w = false := by
        rcases hws w (by simp) with h | h <;> simp [isEq, h]
      exact dropWhile_stop _ _ _ this
  have hd2 : ws.dropWhile isBlank = [] := by
    have := dropWhile_append_all isBlank ws [] hws'
    simpa using this
  simp [underlined, dropWhile_append_all _ _ _ heq', hd1, hd2, headIs] at hu

theorem dropWhile_head_false (p : Byte → Bool) (l : List Byte) (c : Byte) (r : List Byte)
    (h : l.dropWhile p = c :: r) : p c = false := by
  induction l with
  | nil => simp at h
  | cons a l ih =>
    by_cases ha : p a = true
    · rw [List.dropWhile_cons_of_pos ha] at h
      exact ih h
    · rw [List.dropWhile_cons_of_neg ha] at h
      simp only [List.cons.injEq] at h
      rw [← h.1]
      simpa using ha

theorem isNewline_of_notNewline_false (c : Byte) (h : notNewline c = false) :
    isNewline c = true := by
  simp only [notNewline, Bool.and_eq_false_iff, bne_eq_false_iff_eq] at h
  rcases h with h | h <;> simp [isNewline, h]

/-- The inputs on which `getTitle` panics are exactly those whose first
non-blank line runs to the end of the input; on every other input it returns. -/
theorem getTitle_panics_iff (input : List Byte) :
    getTitle input = none ↔ ∃ blanks L, input = blanks ++ L ∧ Blank blanks ∧ LineBody L := by
  constructor
  · intro hnone
    have e1 := List.takeWhile_append_dropWhile isNewline input
    have hbl : ∀ b ∈ input.takeWhile isNewline, isNewline b = true :=
      fun b hb => List.mem_takeWhile_imp hb
    cases hr : input.dropWhile isNewline with
    | nil =>
      rw [hr, List.append_nil] at e1
      have := getTitle_blank _ hbl
      rw [e1, hnone] at this
      simp at this
    | cons c r' =>
      have hc : isNewline c = false := dropWhile_head_false _ _ _ _ hr
      have e2 := List.takeWhile_append_dropWhile notNewline (c :: r')
      have hLn : ∀ b ∈ (c :: r').takeWhile notNewline, notNewline b = true :=
        fun b hb => List.mem_takeWhile_imp hb
      have hcn : notNewline c = true := by
        simp only [isNewline, Bool.or_eq_false_iff, beq_eq_false_iff_ne, ne_eq] at hc
        simp [notNewline, hc.1, hc.2]
      have hLne : (c :: r').takeWhile notNewline ≠ [] := by
        simp [List.takeWhile_cons, hcn]
      cases hr2 : (c :: r').dropWhile notNewline with
      | nil =>
        rw [hr2, List.append_nil] at e2
        refine ⟨input.takeWhile isNewline, (c :: r').takeWhile notNewline, ?_, ?_, hLne, ?_⟩
        · rw [e2, ← hr, e1]
        · intro b hb
          simpa [isNewline] using hbl b hb
        · intro b hb
          simpa [notNewline] using hLn b hb
      | cons t rest =>
        have ht : isNewline t = true :=
          isNewline_of_notNewline_false t (dropWhile_head_false _ _ _ _ hr2)
        have := getTitle_firstLine _ _ rest t hbl hLne hLn ht
        rw [List.append_assoc, ← hr2, e2, ← hr, e1, hnone] at this
        simp at this
  · rintro ⟨blanks, L, rfl, hb, hL⟩
    exact getTitle_unterminated blanks L hb.isNewline hL.1 hL.notNewline

/-! ## Normalisation -/

theorem normalize_page (mh : md2html) :
    (normalize mh).page = (mh.page || decide (mh.css ≠ "")) := by
  by_cases hc : mh.css = "" <;> cases hp : mh.page <;> cases ht : mh.toc <;>
    simp [normalize, hc, hp, ht]

theorem normalize_latex (mh : md2html) :
    (normalize mh).latex = (mh.latex && !(mh.page || decide (mh.css ≠ "")) && !mh.toc) := by
  by_cases hc : mh.css = "" <;> cases hp : mh.page <;> cases ht : mh.toc <;>
    simp [normalize, hc, hp, ht]

theorem normalize_toc (mh : md2html) : (normalize mh).toc = mh.toc := by
  by_cases hc : mh.css = "" <;> cases hp : mh.page <;> cases ht : mh.toc <;>
    simp [normalize, hc, hp, ht]

theorem normalize_css (mh : md2html) : (normalize mh).css = mh.css := by
  by_cases hc : mh.css = "" <;> cases hp : mh.page <;> cases ht : mh.toc <;>
    simp [normalize, hc, hp, ht]

/-! ## The claims about `getTitle` -/

/-- C1 (the code departs from the claim): `getTitle` does not return on every
input. When the first non-blank line runs to the end of the input, the read
`input[i]` after the line loop is out of range: the inputs `abc`, `====` and
two blank lines followed by `Title` all make it panic. -/
theorem getTitle_panics_without_line_break :
    getTitle (bytes "abc") = none ∧ getTitle (bytes "====") = none ∧
      getTitle (bytes "\n\nTitle") = none := by
  decide

/-- C2, as stated, fails: the line `# ` (two bytes) followed by a row of `=`
does not give the empty title. The prefix test needs three bytes, so the line is
taken as the text of an underlined heading and the title is `#`. -/
theorem getTitle_hash_blank_underlined :
    getTitle (bytes "# \n===\n") = some (bytes "#") ∧
      getTitle (bytes "# \n===\n") ≠ some (TrimSpace ((bytes "# ").drop 2)) := by
  decide

/-- C2, amended: when the first non-blank line `L` is ended by a line break and
starts with `#` followed by a space or a tab, and `L` has at least three bytes or
the next line is not an underline of `=` ended by a line break, `getTitle`
returns the rest of `L` after those two bytes with surrounding white space
trimmed, whatever follows the line: the value returned is the rest of `L` without
a leading and a trailing run of white space characters, it neither begins nor
ends with a white space character, and it is the only such string. -/
theorem getTitle_atx (blanks L term next : List Byte)
    (hb : Blank blanks) (hL : LineBody L) (ht : LineBreak term next)
    (hs : HashStart L) (h3 : 3 ≤ L.length ∨ ¬ Underline next) :
    getTitle (blanks ++ L ++ term ++ next) = some (TrimSpace (L.drop 2)) ∧
      Trimmed (L.drop 2) (TrimSpace (L.drop 2)) ∧
      ∀ t, Trimmed (L.drop 2) t → t = TrimSpace (L.drop 2) := by
  refine ⟨?_, TrimSpace_spec _, fun t h => (TrimSpace_of_Trimmed _ t h).symm⟩
  rw [getTitle_line blanks L term next hb hL ht]
  by_cases hlen : 3 ≤ L.length
  · simp [titleOf, hashLead_of_HashStart L hs hlen]
  · have hu : underlined next = false := by
      rcases h3 with h | h
      · exact absurd h hlen
      · by_contra hc
        exact h (Underline_of_underlined next (by simpa using hc))
    have hh : hashLead L = false := by
      simp only [hashLead, Bool.and_eq_false_iff, decide_eq_false_iff_not]
      exact Or.inl (Or.inl hlen)
    have h2 : L.drop 2 = [] := by
      have h0 := hs.1
      have h1 := hs.2
      match L, h0, h1, hlen with
      | [_, _], _, _, _ => rfl
      | [_], _, h1, _ => simp at h1
      | [], h0, _, _ => simp at h0
      | _ :: _ :: _ :: _, _, _, hlen => simp at hlen
    simp only [titleOf, hh, hu, Bool.false_eq_true, if_false, h2]
    decide

/-- C2, amended, at the line `#`, two spaces, a tab, `Foo`, a space, a tab,
followed by a line feed and `text`: the title is `Foo`, which is the rest of the
line without the white space around it. -/
theorem getTitle_atx_witness :
    getTitle (bytes "#  \tFoo \t\ntext") = some (bytes "Foo") ∧
      Trimmed (bytes " \tFoo \t") (bytes "Foo") ∧
      ∀ t, Trimmed (bytes " \tFoo \t") t → t = bytes "Foo" :=
  getTitle_atx [] (bytes "#  \tFoo \t") [10] (bytes "text")
    (by decide)
    (by decide)
    (by decide)
    (by decide)
    (Or.inl (by decide))

/-- C3: when the first non-blank line `L` does not start with `#` followed by a
space or a tab, is ended by a line break, and is followed by a line of one or
more `=`, then optional spaces or tabs, then a line break, `getTitle` returns `L`
with surrounding white space trimmed, whatever comes after: the value returned is
`L` without a leading and a trailing run of white space characters, it neither
begins nor ends with a white space character, and it is the only such string. -/
theorem getTitle_setext (blanks L term next : List Byte)
    (hb : Blank blanks) (hL : LineBody L) (ht : LineBreak term next)
    (hs : ¬ HashStart L) (hu : Underline next) :
    getTitle (blanks ++ L ++ term ++ next) = some (TrimSpace L) ∧
      Trimmed L (TrimSpace L) ∧ ∀ t, Trimmed L t → t = TrimSpace L := by
  refine ⟨?_, TrimSpace_spec _, fun t h => (TrimSpace_of_Trimmed _ t h).symm⟩
  rw [getTitle_line blanks L term next hb hL ht]
  simp [titleOf, hashLead_false_of_not_HashStart L hs, underlined_of_Underline next hu]

/-- C3 at the line made of a no-break space (U+00A0), a tab, `Foo`, a space and
an ideographic space (U+3000), followed by a line feed, `====`, a line feed and
`body`: the title is `Foo`, which is the line without the white space around it. -/
theorem getTitle_setext_witness :
    getTitle ([0xC2, 0xA0, 9] ++ bytes "Foo" ++ [32, 0xE3, 0x80, 0x80] ++ bytes "\n====\nbody")
        = some (bytes "Foo") ∧
      Trimmed ([0xC2, 0xA0, 9] ++ bytes "Foo" ++ [32, 0xE3, 0x80, 0x80]) (bytes "Foo") ∧
      ∀ t, Trimmed ([0xC2, 0xA0, 9] ++ bytes "Foo" ++ [32, 0xE3, 0x80, 0x80]) t →
        t = bytes "Foo" :=
  getTitle_setext [] ([0xC2, 0xA0, 9] ++ bytes "Foo" ++ [32, 0xE3, 0x80, 0x80]) [10]
    (bytes "====\nbody")
    (by decide)
    (by decide)
    (by decide)
    (by decide)
    ⟨bytes "====", [], 10, bytes "body", by decide, by decide, by decide, by decide, by decide⟩

/-- C8: `getTitle` returns the empty title when the input is empty or only blank
lines, and when the first non-blank line `L` is ended by a line break, does not
start with `#` followed by a space or a tab, and the line after it is not a run
of `=` (then optional spaces or tabs) followed by a line break; an underline
that runs to the end of the input is such a line. -/
theorem getTitle_no_heading (input : List Byte)
    (h : Blank input ∨
      (∃ blanks L term next, input = blanks ++ L ++ term ++ next ∧ Blank blanks ∧
        LineBody L ∧ LineBreak term next ∧ ¬ HashStart L ∧ ¬ Underline next) ∨
      (∃ blanks L term eqs ws, input = blanks ++ L ++ term ++ (eqs ++ ws) ∧ Blank blanks ∧
        LineBody L ∧ LineBreak term (eqs ++ ws) ∧ ¬ HashStart L ∧
        (∀ b ∈ eqs, b = 61) ∧ (∀ b ∈ ws, b = 32 ∨ b = 9))) :
    getTitle input = some defaultTitle := by
  have key : ∀ blanks L term next, Blank blanks → LineBody L → LineBreak term next →
      ¬ HashStart L → ¬ Underline next →
      getTitle (blanks ++ L ++ term ++ next) = some defaultTitle := by
    intro blanks L term next hb hL ht hs hu
    rw [getTitle_line blanks L term next hb hL ht]
    have hu' : underlined next = false := by
      by_contra hc
      exact hu (Underline_of_underlined next (by simpa using hc))
    simp [titleOf, hashLead_false_of_not_HashStart L hs, hu']
  rcases h with h | ⟨blanks, L, term, next, rfl, hb, hL, ht, hs, hu⟩ |
      ⟨blanks, L, term, eqs, ws, rfl, hb, hL, ht, hs, heq, hws⟩
  · exact getTitle_blank input h.isNewline
  · exact key blanks L term next hb hL ht hs hu
  · exact key blanks L term (eqs ++ ws) hb hL ht hs (not_Underline_of_run eqs ws heq hws)

/-- C8 at the input `Foo`, line feed, `===` with no line break after it: the
title is empty. -/
theorem getTitle_no_heading_witness :
    getTitle (bytes "Foo\n===") = some defaultTitle :=
  getTitle_no_heading (bytes "Foo\n===")
    (Or.inr (Or.inr ⟨[], bytes "Foo", [10], bytes "===", [], by decide,
      by decide, by decide, by decide, by decide, by decide, by decide⟩))

/-- Every input that begins with `# Foo` and a line feed has the title `Foo`. -/
theorem getTitle_hash_Foo (rest : List Byte) :
    getTitle (bytes "# Foo\n" ++ rest) = some (bytes "Foo") := by
  have := getTitle_firstLine [] (bytes "# Foo") rest 10 (by decide) (by decide) (by decide)
    (by decide)
  have e : bytes "# Foo\n" ++ rest = [] ++ bytes "# Foo" ++ 10 :: rest := by
    simp [bytes]
  rw [e, this]
  have hh : hashLead (bytes "# Foo") = true := by decide
  have ht : TrimSpace ((bytes "# Foo").drop 2) = bytes "Foo" := by decide
  simp only [titleOf, hh, if_true, ht]

/-- Every input that begins with `Foo`, a line feed, `====` and a line feed has
the title `Foo`. -/
theorem getTitle_Foo_underlined (rest : List Byte) :
    getTitle (bytes "Foo\n====\n" ++ rest) = some (bytes "Foo") := by
  have := getTitle_firstLine [] (bytes "Foo") (bytes "====\n" ++ rest) 10 (by decide)
    (by decide) (by decide) (by decide)
  have e : bytes "Foo\n====\n" ++ rest = [] ++ bytes "Foo" ++ 10 :: (bytes "====\n" ++ rest) := by
    simp [bytes]
  rw [e, this]
  have hh : hashLead (bytes "Foo") = false := by decide
  have hu : underlined (afterBreak 10 (bytes "====\n" ++ rest)) = true :=
    underlined_of_Underline _
      ⟨bytes "====", [], 10, rest, by decide, by decide, by decide, by decide, by
        simp [afterBreak, bytes]⟩
  have ht : TrimSpace (bytes "Foo") = bytes "Foo" := by decide
  simp only [titleOf, hh, hu, if_true, ht, Bool.false_eq_true, if_false]

/-! ## The claims about the implied-option pass -/

/-- C4: after the implied-option pass of `Handle`, a non-empty `css` implies
`page`, `page` implies `latex = false`, and `toc` implies `latex = false`; hence a
non-empty `css` in the given options gives `page = true` and `latex = false`,
whatever the given `page` and `latex` were. -/
theorem normalize_postconditions (mh : md2html) :
    ((normalize mh).css ≠ "" → (normalize mh).page = true) ∧
    ((normalize mh).page = true → (normalize mh).latex = false) ∧
    ((normalize mh).toc = true → (normalize mh).latex = false) ∧
    (mh.css ≠ "" → (normalize mh).page = true ∧ (normalize mh).latex = false) := by
  rw [normalize_page, normalize_latex, normalize_toc, normalize_css]
  by_cases hc : mh.css = "" <;> cases mh.page <;> cases mh.toc <;> cases mh.latex <;>
    simp [hc]

/-- C4 at the options `css = style.css`, `latex = true`, `page = false`: the
effective options have `page = true` and `latex = false`. -/
theorem normalize_postconditions_witness :
    (normalize { defaultOptions with css := "style.css", latex := true }).page = true ∧
    (normalize { defaultOptions with css := "style.css", latex := true }).latex = false :=
  (normalize_postconditions { defaultOptions with css := "style.css", latex := true }).2.2.2
    (by decide)

/-- C9: the implied-option pass is idempotent on every field. -/
theorem normalize_idempotent (mh : md2html) : normalize (normalize mh) = normalize mh := by
  obtain ⟨toc, page, latex, tocOnly, fractions, smartyPants, latexDashes, htmlSimple, css,
    driver, output, style⟩ := mh
  by_cases hc : css = "" <;> cases page <;> cases toc <;> cases latex <;>
    simp [normalize, hc]

/-- C10 (the code departs from the claim): with `tocOnly = true` and `toc = false`
the implied-option pass leaves `toc = false`; the help text of the option says
`implies -toc` and no statement of `Handle` does it. -/
theorem normalize_tocOnly_leaves_toc :
    (normalize { defaultOptions with tocOnly := true }).tocOnly = true ∧
    (normalize { defaultOptions with tocOnly := true }).toc = false := by
  decide

/-! ## The claims about the backends -/

/-- C5, as stated, fails: with `latex = true`, `goMarkdown` returns the `nil`
error. -/
theorem goMarkdown_latex_returns_nil :
    ∃ r, goMarkdown sampleLib okOS { defaultOptions with latex := true } mdString = some r ∧
      r.err = none :=
  ⟨{ err := none, trace := [Event.println ["unsupported"]] }, rfl, rfl⟩

/-- C5, amended: for every input and every options with `latex = true`,
`goMarkdown` renders nothing and writes nothing to the output: it prints the
notice `unsupported` and returns the `nil` error. -/
theorem goMarkdown_latex_unsupported (L : Lib) (O : OS) (mh : md2html) (input : List Byte)
    (h : mh.latex = true) :
    goMarkdown L O mh input = some { err := none, trace := [Event.println ["unsupported"]] } := by
  simp [goMarkdown, h]

/-- C5, amended, at the default options with `latex = true` and the text `# T`. -/
theorem goMarkdown_latex_unsupported_witness :
    goMarkdown sampleLib okOS { defaultOptions with latex := true } (bytes "# T\n")
      = some { err := none, trace := [Event.println ["unsupported"]] } :=
  goMarkdown_latex_unsupported sampleLib okOS { defaultOptions with latex := true }
    (bytes "# T\n") rfl

/-- With `latex = true` and no `page`, `blackFriday` does not read the option: it
renders HTML and writes it to the output. -/
theorem blackFriday_latex_renders (L : Lib) (O : OS) (mh : md2html) (input : List Byte)
    (h : mh.page = false) :
    blackFriday L O { mh with latex := true } input
      = blackFriday L O { mh with latex := false } input := by
  simp [blackFriday, bfParams, bfHtmlFlags, outToWriter, h]

/-- C6 (the code departs from the claim): for the unrecognised driver `xx`,
`Handle` prints `Use Driver: blackfriday`, the name `driverName` reports, and then
renders with `goMarkdown`. -/
theorem Handle_unknown_driver (L : Lib) (O : OS) (workDir : String) :
    driverName { defaultOptions with driver := "xx" } = "blackfriday" ∧
    Handle L O workDir { defaultOptions with driver := "xx" } =
      (goMarkdown L O { defaultOptions with driver := "xx" } mdString).map
        (Run.after [Event.println ["Work Dir:", workDir],
          Event.println ["Use Driver:", "blackfriday"]]) := by
  refine ⟨by decide, ?_⟩
  have hn : normalize { defaultOptions with driver := "xx" }
      = { defaultOptions with driver := "xx" } := by decide
  have hd : driverName { defaultOptions with driver := "xx" } = "blackfriday" := by decide
  have hne : ¬ (({ defaultOptions with driver := "xx" } : md2html).driver = driverBF) := by
    decide
  unfold Handle
  simp only [hn, hd, hne, if_false]
  cases goMarkdown L O { defaultOptions with driver := "xx" } mdString <;> rfl

/-- Dispatch in `Handle`: every driver other than `bf` is rendered by `goMarkdown`. -/
theorem Handle_dispatch_else (L : Lib) (O : OS) (workDir : String) (mh : md2html)
    (h : mh.driver ≠ "bf") :
    Handle L O workDir mh =
      (goMarkdown L O (normalize mh) mdString).map
        (Run.after [Event.println ["Work Dir:", workDir],
          Event.println ["Use Driver:", driverName (normalize mh)]]) := by
  have hd : (normalize mh).driver = mh.driver := by
    by_cases hc : mh.css = "" <;> cases hp : mh.page <;> cases ht : mh.toc <;>
      simp [normalize, hc, hp, ht]
  have hne : ¬ ((normalize mh).driver = driverBF) := by rw [hd]; exact h
  unfold Handle
  simp only [hne, if_false]
  cases goMarkdown L O (normalize mh) mdString <;> rfl

/-- Dispatch in `Handle`: the driver `bf` is rendered by `blackFriday`. -/
theorem Handle_dispatch_bf (L : Lib) (O : OS) (workDir : String) (mh : md2html)
    (h : mh.driver = "bf") :
    Handle L O workDir mh =
      (blackFriday L O (normalize mh) mdString).map
        (Run.after [Event.println ["Work Dir:", workDir],
          Event.println ["Use Driver:", "blackfriday"]]) := by
  have hd : (normalize mh).driver = mh.driver := by
    by_cases hc : mh.css = "" <;> cases hp : mh.page <;> cases ht : mh.toc <;>
      simp [normalize, hc, hp, ht]
  have hbf : (normalize mh).driver = driverBF := by rw [hd]; exact h
  have hn : driverName (normalize mh) = "blackfriday" := by
    simp [driverName, drivers, hd, h]
  unfold Handle
  simp only [hbf, if_true, hn]
  cases blackFriday L O (normalize mh) mdString <;> rfl

/-- C7 (the code departs from the claim): whatever the flag constants, the flags
that `blackFriday` hands to the HTML renderer are `CommonHTMLFlags` with `page`
set and with `page` not set, with `toc` set, and with `smartyPants` cleared; the
flags it computes from the options are not handed over. -/
theorem blackFriday_flags_constant (K : BFFlags) :
    (bfParams K { defaultOptions with page := true } mdString).map RendererParams.Flags
      = some K.CommonHTMLFlags ∧
    (bfParams K { defaultOptions with page := false } mdString).map RendererParams.Flags
      = some K.CommonHTMLFlags ∧
    (bfParams K { defaultOptions with toc := true } mdString).map RendererParams.Flags
      = some K.CommonHTMLFlags ∧
    (bfParams K { defaultOptions with smartyPants := false } mdString).map RendererParams.Flags
      = some K.CommonHTMLFlags := by
  have ht : getTitle mdString = some (bytes "title") := by decide
  refine ⟨?_, ?_, ?_, ?_⟩ <;> simp [bfParams, defaultOptions, ht]

/-- The sibling backend `goMarkdown` hands over the flags it computes: when the
five flag constants are distinct single bits, the flags given to `html.NewRenderer`
contain each of them exactly when its option is set. -/
theorem gmParams_flags (K : GMFlags) (a b c d e : Nat)
    (ha : K.Smartypants = 2 ^ a) (hb : K.SmartypantsFractions = 2 ^ b)
    (hc : K.SmartypantsLatexDashes = 2 ^ c) (hd : K.CompletePage = 2 ^ d)
    (he : K.TOC = 2 ^ e) (hnd : [a, b, c, d, e].Nodup)
    (mh : md2html) (input : List Byte) (p : RendererParams)
    (hp : gmParams K mh input = some p) :
    p.Flags.testBit a = mh.smartyPants ∧ p.Flags.testBit b = mh.fractions ∧
      p.Flags.testBit c = mh.latexDashes ∧ p.Flags.testBit d = mh.page ∧
      p.Flags.testBit e = mh.toc := by
  simp only [List.nodup_cons, List.mem_cons, List.mem_singleton, not_or, List.not_mem_nil,
    not_false_eq_true, List.nodup_nil, and_true] at hnd
  obtain ⟨⟨hab, hac, had, hae⟩, ⟨hbc, hbd, hbe⟩, ⟨hcd, hce⟩, hde⟩ := hnd
  have hflags : p.Flags =
      ((((((0 : Nat) ||| (if mh.smartyPants then 2 ^ a else 0)) |||
        (if mh.fractions then 2 ^ b else 0)) ||| (if mh.latexDashes then 2 ^ c else 0)) |||
        (if mh.page then 2 ^ d else 0)) ||| (if mh.toc then 2 ^ e else 0)) := by
    unfold gmParams at hp
    cases hpg : mh.page with
    | false =>
      simp only [hpg, Bool.false_eq_true, if_false, Option.pure_def, Option.bind_eq_bind,
        Option.some_bind, Option.some.injEq] at hp
      rw [← hp, ha, hb, hc, he]
      cases mh.smartyPants <;> cases mh.fractions <;> cases mh.latexDashes <;> cases mh.toc <;>
        simp
    | true =>
      cases hg : getTitle input with
      | none => simp [hpg, hg] at hp
      | some t =>
        simp only [hpg, hg, if_true, Option.pure_def, Option.bind_eq_bind,
          Option.some_bind, Option.some.injEq] at hp
        rw [← hp, ha, hb, hc, hd, he]
        cases mh.smartyPants <;> cases mh.fractions <;> cases mh.latexDashes <;>
          cases mh.toc <;> simp
  rw [hflags]
  have hba := Ne.symm hab
  have hca := Ne.symm hac
  have hda := Ne.symm had
  have hea := Ne.symm hae
  have hcb := Ne.symm hbc
  have hdb := Ne.symm hbd
  have heb := Ne.symm hbe
  have hdc := Ne.symm hcd
  have hec := Ne.symm hce
  have hed := Ne.symm hde
  refine ⟨?_, ?_, ?_, ?_, ?_⟩ <;>
    cases mh.smartyPants <;> cases mh.fractions <;> cases mh.latexDashes <;>
    cases mh.page <;> cases mh.toc <;>
    simp [Nat.testBit_or, Nat.testBit_two_pow, *]

end Mkdown
